import Mathlib

/-!
Verification of the Leaderboard-Sorter ranking core.

This file gives a shallow embedding of the ranking engine
(src/services/LeaderboardSorter.ts) and the tiebreaker utilities
(src/utils/tiebreakers.ts) and proves the specified properties about them.

Modelling choices:
- Numeric scores and spending amounts are modelled as integers.  The
  acquisition layer rounds every value to two decimal places before the core
  runs, so all values are exact multiples of 0.01 and every comparison the
  core performs coincides with the integer comparison of hundredths.
- `Array.prototype.sort` with a consistent comparator is modelled by
  insertion sort over the relation "comparator result is nonpositive"; the
  claims proved below depend only on the output being a sorted permutation,
  which every conforming sort implementation produces.
- `String.prototype.localeCompare` is modelled by character-wise (code point)
  three-way comparison `nameCmp`; the claims use only that it is a total
  order on names that vanishes exactly on equal names.
- JavaScript object identity (used by the tie-marking pass, which mutates
  the player objects collected by `findTieGroups`) is modelled by list
  position: `findTieGroups` returns groups of indices into the player list.
-/

/-- Competitor record, from the `Player` interface in src/types/index.ts.
`rank` and `isTied` are the optional derived fields the ranking engine
writes; they are absent (`none` / `false`) on records produced by the
acquisition layer. -/
structure Player where
  name : String
  eventScores : List Int
  eventSpending : List Int
  totalPoints : Int
  totalSpending : Int
  rank : Option Nat := none
  isTied : Bool := false
deriving DecidableEq, Repr

/-- Descending numeric sort, the `.sort((a, b) => b - a)` calls of the
source. -/
def sortDesc (l : List Int) : List Int :=
  List.insertionSort (fun a b => b ≤ a) l

/-- Performance profile of a player: the non-zero (strictly positive, as the
source filters `s => s > 0`) event scores sorted in descending order.
These are the local arrays `p1Scores` / `p2Scores` built at the top of
`countbackCompare` in src/utils/tiebreakers.ts. -/
def profileOf (p : Player) : List Int :=
  sortDesc (p.eventScores.filter (fun s => decide (0 < s)))

/-- Position-by-position walk of `countbackCompare` over two fixed profiles,
from src/utils/tiebreakers.ts lines 16-41: out-of-range positions read 0,
a strictly higher score at the current position decides, equal positive
scores are tie-broken by the number of occurrences of that value in each
full profile, and the walk otherwise advances.  The loop bound
`i < maxLength` is carried as the remaining iteration count `fuel`, kept
equal to `maxLength - i`, so that the recursion is structural. -/
def cbLoop (f1 f2 : List Int) : Nat → Nat → Int
  | 0, _ => 0
  | fuel + 1, i =>
    let score1 := f1.getD i 0
    let score2 := f2.getD i 0
    if score2 < score1 then -1
    else if score1 < score2 then 1
    else if score1 = score2 ∧ 0 < score1 then
      let count1 := (f1.filter (fun s => decide (s = score1))).length
      let count2 := (f2.filter (fun s => decide (s = score2))).length
      if count2 < count1 then -1
      else if count1 < count2 then 1
      else cbLoop f1 f2 fuel (i + 1)
    else cbLoop f1 f2 fuel (i + 1)

/-- Countback comparison of two players, `countbackCompare` of
src/utils/tiebreakers.ts: -1 if `p1` ranks higher, 1 if `p2` ranks higher,
0 if still tied. -/
def countbackCompare (p1 p2 : Player) : Int :=
  cbLoop (profileOf p1) (profileOf p2) (max (profileOf p1).length (profileOf p2).length) 0

/-- Increment the count stored under key `s` in an insertion-ordered
association list, appending a fresh `(s, 1)` entry when the key is absent;
this is `frequency.set(score, (frequency.get(score) || 0) + 1)` on a
JavaScript `Map`. -/
def bumpFreq : List (Int × Nat) → Int → List (Int × Nat)
  | [], s => [(s, 1)]
  | (k, c) :: t, s => if k = s then (k, c + 1) :: t else (k, c) :: bumpFreq t s

/-- Map from positive score values to their occurrence counts, in first
insertion order: `getScoreFrequency` of src/utils/tiebreakers.ts. -/
def getScoreFrequency (p : Player) : List (Int × Nat) :=
  p.eventScores.foldl (fun m s => if 0 < s then bumpFreq m s else m) []

/-- Ordering relation corresponding to the comparator used by
`detailedCountback` on frequency entries: score descending, then count
descending (`x` may come before `y` exactly when the comparator is
nonpositive). -/
def freqLe (x y : Int × Nat) : Prop :=
  y.1 < x.1 ∨ (x.1 = y.1 ∧ y.2 ≤ x.2)

instance : DecidableRel freqLe := fun x y => by
  unfold freqLe; exact inferInstance

/-- Frequency entries of a player sorted by score descending then count
descending, as built at the top of `detailedCountback`. -/
def sortedFreq (p : Player) : List (Int × Nat) :=
  List.insertionSort freqLe (getScoreFrequency p)

/-- Three-way comparison of one `(score, count)` position of
`detailedCountback`: score first, then count, higher is better (-1 means
the first argument is stronger). -/
def pairCmp (x y : Int × Nat) : Int :=
  if y.1 < x.1 then -1
  else if x.1 < y.1 then 1
  else if y.2 < x.2 then -1
  else if x.2 < y.2 then 1
  else 0

/-- Index walk of `detailedCountback` over the two sorted frequency lists,
padding out-of-range positions with `(0, 0)`. -/
def dcAux (l1 l2 : List (Int × Nat)) (i : Nat) : Int :=
  if _h : i < max l1.length l2.length then
    let c := pairCmp (l1.getD i (0, 0)) (l2.getD i (0, 0))
    if c ≠ 0 then c else dcAux l1 l2 (i + 1)
  else 0
termination_by max l1.length l2.length - i
decreasing_by
  all_goals omega

/-- Alternative countback implementation, `detailedCountback` of
src/utils/tiebreakers.ts: lexicographic comparison of the sorted
`(score, count)` frequency encodings. -/
def detailedCountback (p1 p2 : Player) : Int :=
  dcAux (sortedFreq p1) (sortedFreq p2) 0

/-- Full-tie test, `arePlayersTied` of src/utils/tiebreakers.ts: equal total
points, equal total spending, and countback returns 0. -/
def arePlayersTied (p1 p2 : Player) : Bool :=
  if p1.totalPoints ≠ p2.totalPoints then false
  else if p1.totalSpending ≠ p2.totalSpending then false
  else if countbackCompare p1 p2 ≠ 0 then false
  else true

/-- Inner loop of `findTieGroups`: scan the remaining (index, player) pairs
for players tied with the group leader `p`, skipping already-processed
names and recording the names of the players added to the group.  Returns
the collected indices and the updated processed-name list. -/
def scanGroup (p : Player) : List (Nat × Player) → List String → List Nat × List String
  | [], pr => ([], pr)
  | (j, q) :: rest, pr =>
    if q.name ∈ pr then scanGroup p rest pr
    else if arePlayersTied p q then
      let s := scanGroup p rest (q.name :: pr)
      (j :: s.1, s.2)
    else scanGroup p rest pr

/-- Outer loop of `findTieGroups`: each player not yet processed becomes a
group leader, collects all later unprocessed players tied with it, and the
group is kept only when it has at least two members. -/
def findTieGroupsAux : List (Nat × Player) → List String → List (List Nat)
  | [], _ => []
  | (i, p) :: rest, pr =>
    if p.name ∈ pr then findTieGroupsAux rest pr
    else
      let s := scanGroup p rest (p.name :: pr)
      if s.1.isEmpty then findTieGroupsAux rest s.2
      else (i :: s.1) :: findTieGroupsAux rest s.2

/-- Tie groups of `findTieGroups` in src/utils/tiebreakers.ts, with the
players of each group represented by their positions in the input list
(standing in for JavaScript object identity). -/
def findTieGroups (players : List Player) : List (List Nat) :=
  findTieGroupsAux players.enum []

/-- Character-wise three-way string comparison; the model of
`String.prototype.localeCompare` (see the header comment). -/
def strCmp : List Char → List Char → Int
  | [], [] => 0
  | [], _ :: _ => -1
  | _ :: _, [] => 1
  | a :: s, b :: t => if a < b then -1 else if b < a then 1 else strCmp s t

/-- Name comparison used as the final tiebreak level. -/
def nameCmp (x y : String) : Int :=
  strCmp x.data y.data

/-- Composed four-level comparator passed to the sort call in
`LeaderboardSorter.sortPlayers`: total points descending, total spending
ascending, countback, then name. -/
def cmpPlayers (a b : Player) : Int :=
  if a.totalPoints ≠ b.totalPoints then b.totalPoints - a.totalPoints
  else if a.totalSpending ≠ b.totalSpending then a.totalSpending - b.totalSpending
  else
    let c := countbackCompare a b
    if c ≠ 0 then c else nameCmp a.name b.name

/-- Sort relation induced by the comparator: `a` may precede `b` exactly
when the comparator result is nonpositive. -/
def playerLe (a b : Player) : Prop :=
  cmpPlayers a b ≤ 0

instance : DecidableRel playerLe := fun a b => by
  unfold playerLe; exact inferInstance

/-- Rank-assignment walk of `LeaderboardSorter.assignRanks`: `i` is the
0-based loop index, `cur` the current rank value; the rank counter jumps to
`i + 2` (the 1-based position of the next player) whenever the current and
next player differ in total points, or in total spending, or under
countback. -/
def assignRanksAux : Nat → Nat → List Player → List Player
  | _, _, [] => []
  | _, cur, [p] => [{ p with rank := some cur }]
  | i, cur, p :: q :: rest =>
    let cur' :=
      if p.totalPoints ≠ q.totalPoints then i + 2
      else if p.totalSpending ≠ q.totalSpending ∨ countbackCompare p q ≠ 0 then i + 2
      else cur
    { p with rank := some cur } :: assignRanksAux (i + 1) cur' (q :: rest)

/-- Rank assignment over a sorted player list. -/
def assignRanks (players : List Player) : List Player :=
  assignRanksAux 0 1 players

/-- Tie-marking pass of `LeaderboardSorter.markTiedPlayers`: every player
belonging to some tie group found by `findTieGroups` gets `isTied := true`;
all other players are left untouched. -/
def markTiedPlayers (players : List Player) : List Player :=
  let flagged := (findTieGroups players).flatten
  players.enum.map (fun ip => if ip.1 ∈ flagged then { ip.2 with isTied := true } else ip.2)

/-- Ranking pipeline of `LeaderboardSorter.sortPlayers`: sort by the
composed comparator, assign ranks, mark unresolved ties. -/
def sortPlayers (players : List Player) : List Player :=
  markTiedPlayers (assignRanks (List.insertionSort playerLe players))

/-- Run-length encoding of a score profile: each maximal run of equal
adjacent values becomes one `(value, length)` entry.  On a descending
profile this is exactly the `(score, multiplicity)` sequence, best score
first; it is the canonical form both countback implementations are shown
to compare lexicographically. -/
def rle : List Int → List (Int × Nat)
  | [] => []
  | a :: t =>
    match rle t with
    | [] => [(a, 1)]
    | (b, k) :: r => if a = b then (a, k + 1) :: r else (a, 1) :: (b, k) :: r

/-- Decoding of a run-length encoding back into a list. -/
def unrle : List (Int × Nat) → List Int
  | [] => []
  | (v, k) :: r => List.replicate k v ++ unrle r

/-- Lexicographic three-way comparison of two run encodings, padding the
shorter one with `(0, 0)` entries. -/
def lexCmp : List (Int × Nat) → List (Int × Nat) → Int
  | [], [] => 0
  | [], y :: t2 =>
    let c := pairCmp (0, 0) y
    if c ≠ 0 then c else lexCmp [] t2
  | x :: t1, [] =>
    let c := pairCmp x (0, 0)
    if c ≠ 0 then c else lexCmp t1 []
  | x :: t1, y :: t2 =>
    let c := pairCmp x y
    if c ≠ 0 then c else lexCmp t1 t2
termination_by l1 l2 => l1.length + l2.length

/-- Suffix-recursive form of the countback walk: identical decisions to
`cbAux`, but recursing on the tails of the two profiles, with occurrence
counts taken over the current suffixes. -/
def cbRec (l1 l2 : List Int) : Int :=
  if _h : l1 = [] ∧ l2 = [] then 0
  else
    let s1 := l1.headD 0
    let s2 := l2.headD 0
    if s2 < s1 then -1
    else if s1 < s2 then 1
    else if s1 = s2 ∧ 0 < s1 then
      let c1 := (l1.filter (fun s => decide (s = s1))).length
      let c2 := (l2.filter (fun s => decide (s = s2))).length
      if c2 < c1 then -1
      else if c1 < c2 then 1
      else cbRec l1.tail l2.tail
    else cbRec l1.tail l2.tail
termination_by l1.length + l2.length
decreasing_by
  all_goals
    rcases l1 with _ | ⟨a, t1⟩ <;> rcases l2 with _ | ⟨b, t2⟩ <;>
      simp_all [List.tail] <;> omega

/-! ### Basic facts about pair and lexicographic comparison -/

theorem pairCmp_self (x : Int × Nat) : pairCmp x x = 0 := by
  simp [pairCmp]

theorem pairCmp_eq_zero_iff {x y : Int × Nat} : pairCmp x y = 0 ↔ x = y := by
  obtain ⟨x1, x2⟩ := x
  obtain ⟨y1, y2⟩ := y
  simp only [pairCmp, Prod.mk.injEq]
  split_ifs <;> constructor <;> intro h <;> first | exact h.elim | trivial | omega

theorem pairCmp_antisymm (x y : Int × Nat) : pairCmp y x = -pairCmp x y := by
  obtain ⟨x1, x2⟩ := x
  obtain ⟨y1, y2⟩ := y
  simp only [pairCmp]
  split_ifs <;> omega

theorem pairCmp_neg_trans {x y z : Int × Nat} (h1 : pairCmp x y < 0)
    (h2 : pairCmp y z < 0) : pairCmp x z < 0 := by
  obtain ⟨x1, x2⟩ := x
  obtain ⟨y1, y2⟩ := y
  obtain ⟨z1, z2⟩ := z
  simp only [pairCmp] at h1 h2 ⊢
  split_ifs at h1 h2 ⊢ <;> omega

theorem pairCmp_range (x y : Int × Nat) :
    pairCmp x y = -1 ∨ pairCmp x y = 0 ∨ pairCmp x y = 1 := by
  simp only [pairCmp]
  split_ifs <;> simp

theorem lexCmp_self : ∀ l : List (Int × Nat), lexCmp l l = 0 := by
  intro l
  induction l with
  | nil => simp [lexCmp]
  | cons x t ih => simp [lexCmp, pairCmp_self, ih]

theorem lexCmp_nil_left_antisymm :
    ∀ l : List (Int × Nat), lexCmp l [] = -lexCmp [] l := by
  intro l
  induction l with
  | nil => simp [lexCmp]
  | cons y t ih =>
    simp only [lexCmp, Prod.mk_zero_zero]
    rw [pairCmp_antisymm y 0]
    rcases pairCmp_range y (0 : Int × Nat) with h | h | h <;> simp [h, ih]

theorem lexCmp_antisymm : ∀ l1 l2 : List (Int × Nat), lexCmp l2 l1 = -lexCmp l1 l2 := by
  intro l1
  induction l1 with
  | nil => intro l2; exact lexCmp_nil_left_antisymm l2
  | cons x t1 ih =>
    intro l2
    cases l2 with
    | nil => rw [lexCmp_nil_left_antisymm (x :: t1)]; omega
    | cons y t2 =>
      simp only [lexCmp]
      rw [pairCmp_antisymm x y]
      rcases pairCmp_range x y with h | h | h <;> simp [h, ih t2]

theorem lexCmp_range : ∀ l1 l2 : List (Int × Nat),
    lexCmp l1 l2 = -1 ∨ lexCmp l1 l2 = 0 ∨ lexCmp l1 l2 = 1 := by
  have H : ∀ n l1 l2 : _, l1.length + l2.length ≤ n →
      lexCmp l1 l2 = -1 ∨ lexCmp l1 l2 = 0 ∨ lexCmp l1 l2 = 1 := by
    intro n
    induction n with
    | zero =>
      intro l1 l2 h
      have h1 : l1 = [] := List.eq_nil_of_length_eq_zero (by omega)
      have h2 : l2 = [] := List.eq_nil_of_length_eq_zero (by omega)
      subst h1; subst h2
      simp [lexCmp]
    | succ n ih =>
      intro l1 l2 h
      cases l1 with
      | nil =>
        cases l2 with
        | nil => simp [lexCmp]
        | cons y t2 =>
          simp only [lexCmp, Prod.mk_zero_zero]
          rcases pairCmp_range (0 : Int × Nat) y with hc | hc | hc
          · simp [hc]
          · simp only [hc]
            simpa using ih [] t2 (by
              simp only [List.length_nil, List.length_cons] at h ⊢; omega)
          · simp [hc]
      | cons x t1 =>
        cases l2 with
        | nil =>
          simp only [lexCmp, Prod.mk_zero_zero]
          rcases pairCmp_range x (0 : Int × Nat) with hc | hc | hc
          · simp [hc]
          · simp only [hc]
            simpa using ih t1 [] (by
              simp only [List.length_nil, List.length_cons] at h ⊢; omega)
          · simp [hc]
        | cons y t2 =>
          simp only [lexCmp]
          rcases pairCmp_range x y with hc | hc | hc
          · simp [hc]
          · simp only [hc]
            simpa using ih t1 t2 (by
              simp only [List.length_cons] at h ⊢; omega)
          · simp [hc]
  intro l1 l2
  exact H (l1.length + l2.length) l1 l2 le_rfl

/-- Lists of (score, count) entries whose score keys are all strictly
positive, as produced by either countback encoding. -/
def PosKeys (l : List (Int × Nat)) : Prop := ∀ e ∈ l, 0 < e.1

theorem pairCmp_zero_left {y : Int × Nat} (hy : 0 < y.1) : pairCmp (0 : Int × Nat) y = 1 := by
  obtain ⟨y1, y2⟩ := y
  simp only [pairCmp, Prod.fst_zero, Prod.snd_zero] at hy ⊢
  split_ifs <;> omega

theorem pairCmp_zero_right {x : Int × Nat} (hx : 0 < x.1) : pairCmp x (0 : Int × Nat) = -1 := by
  obtain ⟨x1, x2⟩ := x
  simp only [pairCmp, Prod.fst_zero, Prod.snd_zero] at hx ⊢
  split_ifs <;> omega

theorem lexCmp_nil_left_nonneg : ∀ l : List (Int × Nat), PosKeys l → 0 ≤ lexCmp [] l := by
  intro l hl
  cases l with
  | nil => simp [lexCmp]
  | cons y t =>
    have hy : pairCmp (0 : Int × Nat) y = 1 := pairCmp_zero_left (hl y (by simp))
    simp [lexCmp, Prod.mk_zero_zero, hy]

theorem lexCmp_cons_nil_neg {x : Int × Nat} (t : List (Int × Nat)) (hx : 0 < x.1) :
    lexCmp (x :: t) [] = -1 := by
  have h : pairCmp x (0 : Int × Nat) = -1 := pairCmp_zero_right hx
  simp [lexCmp, Prod.mk_zero_zero, h]

theorem lexCmp_eq_zero_iff : ∀ l1 l2 : List (Int × Nat), PosKeys l1 → PosKeys l2 →
    (lexCmp l1 l2 = 0 ↔ l1 = l2) := by
  have H : ∀ n l1 l2 : _, l1.length + l2.length ≤ n → PosKeys l1 → PosKeys l2 →
      lexCmp l1 l2 = 0 → l1 = l2 := by
    intro n
    induction n with
    | zero =>
      intro l1 l2 h _ _ _
      have h1 : l1 = [] := List.eq_nil_of_length_eq_zero (by omega)
      have h2 : l2 = [] := List.eq_nil_of_length_eq_zero (by omega)
      simp [h1, h2]
    | succ n ih =>
      intro l1 l2 h hp1 hp2 hz
      cases l1 with
      | nil =>
        cases l2 with
        | nil => rfl
        | cons y t2 =>
          exfalso
          have hy : pairCmp (0 : Int × Nat) y = 1 := pairCmp_zero_left (hp2 y (by simp))
          simp [lexCmp, Prod.mk_zero_zero, hy] at hz
      | cons x t1 =>
        cases l2 with
        | nil =>
          exfalso
          have hx : pairCmp x (0 : Int × Nat) = -1 := pairCmp_zero_right (hp1 x (by simp))
          simp [lexCmp, Prod.mk_zero_zero, hx] at hz
        | cons y t2 =>
          rcases pairCmp_range x y with hc | hc | hc
          · simp [lexCmp, hc] at hz
          · have hxy : x = y := pairCmp_eq_zero_iff.mp hc
            simp only [lexCmp, hc] at hz
            simp only [ne_eq, not_true_eq_false, if_false, if_neg] at hz
            have ht : t1 = t2 := by
              apply ih t1 t2 (by simp only [List.length_cons] at h; omega)
                (fun e he => hp1 e (by simp [he])) (fun e he => hp2 e (by simp [he]))
              simpa using hz
            simp [hxy, ht]
          · simp [lexCmp, hc] at hz
  intro l1 l2 hp1 hp2
  constructor
  · exact H (l1.length + l2.length) l1 l2 le_rfl hp1 hp2
  · rintro rfl
    exact lexCmp_self l1

theorem lexCmp_neg_trans : ∀ l1 l2 l3 : List (Int × Nat),
    PosKeys l1 → PosKeys l2 → PosKeys l3 →
    lexCmp l1 l2 < 0 → lexCmp l2 l3 < 0 → lexCmp l1 l3 < 0 := by
  have H : ∀ n l1 l2 l3 : _, l1.length + l2.length + l3.length ≤ n →
      PosKeys l1 → PosKeys l2 → PosKeys l3 →
      lexCmp l1 l2 < 0 → lexCmp l2 l3 < 0 → lexCmp l1 l3 < 0 := by
    intro n
    induction n with
    | zero =>
      intro l1 l2 l3 h _ _ _ h12 _
      have h1 : l1 = [] := List.eq_nil_of_length_eq_zero (by omega)
      have h2 : l2 = [] := List.eq_nil_of_length_eq_zero (by omega)
      subst h1; subst h2
      simp [lexCmp] at h12
    | succ n ih =>
      intro l1 l2 l3 h hp1 hp2 hp3 h12 h23
      cases l1 with
      | nil => exact absurd h12 (by have := lexCmp_nil_left_nonneg l2 hp2; omega)
      | cons x t1 =>
        cases l2 with
        | nil => exact absurd h23 (by have := lexCmp_nil_left_nonneg l3 hp3; omega)
        | cons y t2 =>
          cases l3 with
          | nil => exact lexCmp_cons_nil_neg t1 (hp1 x (by simp)) ▸ (by omega)
          | cons z t3 =>
            have hx1 : 0 < x.1 := hp1 x (by simp)
            simp only [lexCmp] at h12 h23 ⊢
            rcases pairCmp_range x y with hxy | hxy | hxy <;>
              rcases pairCmp_range y z with hyz | hyz | hyz
            · have hxz : pairCmp x z < 0 :=
                pairCmp_neg_trans (by omega : pairCmp x y < 0) (by omega : pairCmp y z < 0)
              simp [show pairCmp x z = -1 from by rcases pairCmp_range x z with h | h | h <;> omega]
            · have hyzeq : y = z := pairCmp_eq_zero_iff.mp hyz
              subst hyzeq
              simp [hxy]
            · simp [hyz] at h23
            · have hxyeq : x = y := pairCmp_eq_zero_iff.mp hxy
              subst hxyeq
              simp [hyz]
            · have hxyeq : x = y := pairCmp_eq_zero_iff.mp hxy
              have hyzeq : y = z := pairCmp_eq_zero_iff.mp hyz
              subst hxyeq; subst hyzeq
              simp only [hxy] at h12 h23 ⊢
              simp only [ne_eq, not_true_eq_false, if_false] at h12 h23 ⊢
              exact ih t1 t2 t3 (by simp only [List.length_cons] at h; omega)
                (fun e he => hp1 e (by simp [he])) (fun e he => hp2 e (by simp [he]))
                (fun e he => hp3 e (by simp [he])) h12 h23
            · simp [hyz] at h23
            · simp [hxy] at h12
            · simp [hxy] at h12
            · simp [hxy] at h12
  intro l1 l2 l3 hp1 hp2 hp3 h12 h23
  exact H (l1.length + l2.length + l3.length) l1 l2 l3 le_rfl hp1 hp2 hp3 h12 h23

/-! ### Sortedness machinery for descending integer sorts -/

/-- Descending sortedness: each element is greater than or equal to every
later element. -/
def sortedDesc (l : List Int) : Prop := List.Pairwise (fun a b => b ≤ a) l

instance : IsTotal Int (fun a b => b ≤ a) := ⟨fun a b => le_total b a⟩

instance : IsTrans Int (fun a b => b ≤ a) := ⟨fun _ _ _ h1 h2 => le_trans h2 h1⟩

instance : IsAntisymm Int (fun a b => b ≤ a) := ⟨fun _ _ h1 h2 => le_antisymm h2 h1⟩

theorem sortDesc_perm (l : List Int) : List.Perm (sortDesc l) l := List.perm_insertionSort _ l

theorem sortDesc_sorted (l : List Int) : sortedDesc (sortDesc l) :=
  List.sorted_insertionSort _ l

theorem sortDesc_eq_of_perm {l1 l2 : List Int} (h : List.Perm l1 l2) : sortDesc l1 = sortDesc l2 :=
  List.eq_of_perm_of_sorted (((sortDesc_perm l1).trans h).trans (sortDesc_perm l2).symm)
    (sortDesc_sorted l1) (sortDesc_sorted l2)

theorem profileOf_sorted (p : Player) : sortedDesc (profileOf p) := sortDesc_sorted _

theorem profileOf_perm (p : Player) :
    List.Perm (profileOf p) (p.eventScores.filter (fun s => decide (0 < s))) := sortDesc_perm _

theorem profileOf_pos (p : Player) : ∀ x ∈ profileOf p, 0 < x := by
  intro x hx
  have hx2 : x ∈ p.eventScores.filter (fun s => decide (0 < s)) :=
    (profileOf_perm p).mem_iff.mp hx
  simpa using (List.of_mem_filter hx2)

/-! ### Run-length encodings of descending profiles -/

/-- Occurrence count of a value in a score list, written exactly as the
source counts it: the length of the sublist of equal entries. -/
def countVal (l : List Int) (v : Int) : Nat :=
  (l.filter (fun s => decide (s = v))).length

/-- Total count stored under a key in a (score, count) list. -/
def keyCount (l : List (Int × Nat)) (v : Int) : Nat :=
  ((l.filter (fun e => decide (e.1 = v))).map Prod.snd).sum

theorem countVal_nil (v : Int) : countVal [] v = 0 := rfl

theorem countVal_cons (a : Int) (t : List Int) (v : Int) :
    countVal (a :: t) v = (if a = v then 1 else 0) + countVal t v := by
  simp only [countVal, List.filter_cons]
  split_ifs <;> simp_all <;> omega

theorem countVal_append (l1 l2 : List Int) (v : Int) :
    countVal (l1 ++ l2) v = countVal l1 v + countVal l2 v := by
  simp [countVal, List.filter_append]

theorem countVal_replicate (k : Nat) (v : Int) :
    countVal (List.replicate k v) v = k := by
  induction k with
  | zero => simp [countVal]
  | succ k ih =>
    rw [List.replicate_succ, countVal_cons, ih, if_pos rfl]
    omega

theorem countVal_eq_zero_of_ne {l : List Int} {v : Int} (h : ∀ x ∈ l, x ≠ v) :
    countVal l v = 0 := by
  induction l with
  | nil => rfl
  | cons a t ih =>
    rw [countVal_cons]
    have ha : a ≠ v := h a (by simp)
    have ht := ih (fun x hx => h x (by simp [hx]))
    simp only [ha, if_false]
    omega

theorem countVal_perm {l1 l2 : List Int} (h : List.Perm l1 l2) (v : Int) :
    countVal l1 v = countVal l2 v := by
  simp only [countVal]
  exact (h.filter _).length_eq

theorem keyCount_nil (v : Int) : keyCount [] v = 0 := rfl

theorem keyCount_cons (x : Int × Nat) (r : List (Int × Nat)) (v : Int) :
    keyCount (x :: r) v = (if x.1 = v then x.2 else 0) + keyCount r v := by
  simp only [keyCount, List.filter_cons]
  split_ifs with h1 <;> simp_all

theorem rle_eq_nil_iff (l : List Int) : rle l = [] ↔ l = [] := by
  cases l with
  | nil => simp [rle]
  | cons a t =>
    cases h : rle t with
    | nil => simp [rle, h]
    | cons hd r =>
      obtain ⟨b, k⟩ := hd
      simp only [rle, h]
      split_ifs <;> simp

theorem rle_cons_head (a : Int) (t : List Int) :
    ∃ k r, rle (a :: t) = (a, k) :: r ∧ 0 < k := by
  cases h : rle t with
  | nil => exact ⟨1, [], by simp [rle, h], by omega⟩
  | cons hd r =>
    obtain ⟨b, k⟩ := hd
    by_cases hab : a = b
    · subst hab
      exact ⟨k + 1, r, by simp [rle, h], by omega⟩
    · exact ⟨1, (b, k) :: r, by simp [rle, h, hab], by omega⟩

theorem unrle_rle : ∀ l : List Int, unrle (rle l) = l := by
  intro l
  induction l with
  | nil => simp [rle, unrle]
  | cons a t ih =>
    cases h : rle t with
    | nil =>
      have ht : t = [] := (rle_eq_nil_iff t).mp h
      subst ht
      simp [rle, unrle]
    | cons hd r =>
      obtain ⟨b, k⟩ := hd
      rw [h] at ih
      by_cases hab : a = b
      · subst hab
        have hr : rle (a :: t) = (a, k + 1) :: r := by simp [rle, h]
        rw [hr]
        show List.replicate (k + 1) a ++ unrle r = a :: t
        rw [List.replicate_succ, List.cons_append]
        have : List.replicate k a ++ unrle r = t := ih
        rw [this]
      · have hr : rle (a :: t) = (a, 1) :: (b, k) :: r := by simp [rle, h, hab]
        rw [hr]
        show List.replicate 1 a ++ unrle ((b, k) :: r) = a :: t
        rw [ih]
        simp

theorem rle_injective {l1 l2 : List Int} (h : rle l1 = rle l2) : l1 = l2 := by
  have h1 := unrle_rle l1
  have h2 := unrle_rle l2
  rw [h] at h1
  rw [h1] at h2
  exact h2

theorem keyCount_rle : ∀ (l : List Int) (v : Int), keyCount (rle l) v = countVal l v := by
  intro l
  induction l with
  | nil => intro v; simp [rle, keyCount_nil, countVal_nil]
  | cons a t ih =>
    intro v
    cases h : rle t with
    | nil =>
      have ht : t = [] := (rle_eq_nil_iff t).mp h
      subst ht
      show keyCount (rle [a]) v = countVal [a] v
      have hr : rle [a] = [(a, 1)] := by simp [rle]
      rw [hr, keyCount_cons, countVal_cons, keyCount_nil, countVal_nil]
    | cons hd r =>
      obtain ⟨b, k⟩ := hd
      have iht := ih v
      rw [h, keyCount_cons] at iht
      by_cases hab : a = b
      · subst hab
        have hr : rle (a :: t) = (a, k + 1) :: r := by simp [rle, h]
        rw [hr, keyCount_cons, countVal_cons]
        have iht2 : (if a = v then k else 0) + keyCount r v = countVal t v := iht
        show (if a = v then k + 1 else 0) + keyCount r v =
          (if a = v then 1 else 0) + countVal t v
        split_ifs at iht2 ⊢ <;> omega
      · have hr : rle (a :: t) = (a, 1) :: (b, k) :: r := by simp [rle, h, hab]
        rw [hr, keyCount_cons, countVal_cons, keyCount_cons]
        have iht2 : (if b = v then k else 0) + keyCount r v = countVal t v := iht
        show (if a = v then 1 else 0) + ((if b = v then k else 0) + keyCount r v) =
          (if a = v then 1 else 0) + countVal t v
        split_ifs at iht2 ⊢ <;> omega

theorem rle_mem : ∀ (l : List Int) (v : Int) (k : Nat),
    (v, k) ∈ rle l → 0 < k ∧ v ∈ l := by
  intro l
  induction l with
  | nil => intro v k h; simp [rle] at h
  | cons a t ih =>
    intro v k hm
    cases h : rle t with
    | nil =>
      have hr : rle (a :: t) = [(a, 1)] := by simp [rle, h]
      rw [hr] at hm
      simp only [List.mem_singleton, Prod.mk.injEq] at hm
      obtain ⟨h1, h2⟩ := hm
      subst h1
      exact ⟨by omega, by simp⟩
    | cons hd r =>
      obtain ⟨b, k2⟩ := hd
      by_cases hab : a = b
      · subst hab
        have hr : rle (a :: t) = (a, k2 + 1) :: r := by simp [rle, h]
        rw [hr] at hm
        rcases List.mem_cons.mp hm with heq | hmem
        · simp only [Prod.mk.injEq] at heq
          exact ⟨by omega, by simp [heq.1]⟩
        · have := ih v k (by rw [h]; exact List.mem_cons_of_mem _ hmem)
          exact ⟨this.1, List.mem_cons_of_mem a this.2⟩
      · have hr : rle (a :: t) = (a, 1) :: (b, k2) :: r := by simp [rle, h, hab]
        rw [hr] at hm
        rcases List.mem_cons.mp hm with heq | hmem
        · simp only [Prod.mk.injEq] at heq
          exact ⟨by omega, by simp [heq.1]⟩
        · have := ih v k (by rw [h]; exact hmem)
          exact ⟨this.1, List.mem_cons_of_mem a this.2⟩

theorem sortedDesc_cons_le {v : Int} {t : List Int} (h : sortedDesc (v :: t)) :
    ∀ x ∈ t, x ≤ v := by
  intro x hx
  exact (List.pairwise_cons.mp h).1 x hx

theorem sortedDesc_tail {v : Int} {t : List Int} (h : sortedDesc (v :: t)) : sortedDesc t :=
  (List.pairwise_cons.mp h).2

/-- Every sorted descending list starting with `v` splits into a maximal run
of copies of `v` followed by a sorted list of strictly smaller values. -/
theorem sorted_run_decomp : ∀ (t : List Int) (v : Int), sortedDesc (v :: t) →
    ∃ k t2, 0 < k ∧ v :: t = List.replicate k v ++ t2 ∧
      (∀ x ∈ t2, x < v) ∧ sortedDesc t2 := by
  intro t
  induction t with
  | nil =>
    intro v _
    exact ⟨1, [], by omega, by simp, by simp, by simp [sortedDesc]⟩
  | cons w t2 ih =>
    intro v h
    by_cases hwv : w = v
    · subst hwv
      obtain ⟨k, t3, hk, heq, hlt, hs⟩ := ih w (sortedDesc_tail h)
      refine ⟨k + 1, t3, by omega, ?_, hlt, hs⟩
      rw [List.replicate_succ, List.cons_append, ← heq]
    · have hwle : w ≤ v := sortedDesc_cons_le h w (by simp)
      have hwlt : w < v := lt_of_le_of_ne hwle hwv
      refine ⟨1, w :: t2, by omega, by simp, ?_, sortedDesc_tail h⟩
      intro x hx
      rcases List.mem_cons.mp hx with rfl | hx2
      · exact hwlt
      · exact lt_of_le_of_lt (sortedDesc_cons_le (sortedDesc_tail h) x hx2) hwlt

theorem rle_replicate_append : ∀ (k : Nat) (v : Int) (t : List Int), 0 < k →
    (∀ x ∈ t, x ≠ v) → rle (List.replicate k v ++ t) = (v, k) :: rle t := by
  intro k
  induction k with
  | zero => intro v t hk _; omega
  | succ k ih =>
    intro v t _ ht
    by_cases hk0 : k = 0
    · subst hk0
      simp only [List.replicate_succ, List.replicate_zero, List.cons_append,
        List.nil_append]
      cases t with
      | nil => simp [rle]
      | cons w t2 =>
        obtain ⟨k2, r, hr, _⟩ := rle_cons_head w t2
        have hvw : v ≠ w := fun hvw => (ht w (by simp)) hvw.symm
        have hstep : rle (v :: w :: t2) =
            match rle (w :: t2) with
            | [] => [(v, 1)]
            | (b, k2) :: r => if v = b then (v, k2 + 1) :: r
              else (v, 1) :: (b, k2) :: r := rfl
        rw [hstep, hr]
        simp [hvw]
    · have ihr := ih v t (by omega) ht
      rw [List.replicate_succ, List.cons_append]
      have : rle (v :: (List.replicate k v ++ t)) =
          match rle (List.replicate k v ++ t) with
          | [] => [(v, 1)]
          | (b, k2) :: r => if v = b then (v, k2 + 1) :: r else (v, 1) :: (b, k2) :: r := rfl
      rw [this, ihr]
      simp

/-- On a sorted descending list, the run-length encoding has strictly
decreasing keys. -/
theorem rle_keys_strict : ∀ l : List Int, sortedDesc l →
    List.Pairwise (fun x y : Int × Nat => y.1 < x.1) (rle l) := by
  have H : ∀ n l, l.length ≤ n → sortedDesc l →
      List.Pairwise (fun x y : Int × Nat => y.1 < x.1) (rle l) := by
    intro n
    induction n with
    | zero =>
      intro l h _
      have h1 : l = [] := List.eq_nil_of_length_eq_zero (by omega)
      subst h1
      simp [rle]
    | succ n ih =>
      intro l h hs
      cases l with
      | nil => simp [rle]
      | cons v t =>
        obtain ⟨k, t2, hk, heq, hlt, hs2⟩ := sorted_run_decomp t v hs
        rw [heq, rle_replicate_append k v t2 hk (fun x hx => ne_of_lt (hlt x hx))]
        rw [List.pairwise_cons]
        constructor
        · intro e he
          obtain ⟨e1, e2⟩ := e
          exact hlt e1 ((rle_mem t2 e1 e2 he).2)
        · apply ih t2 ?_ hs2
          have hlen : (v :: t).length = k + t2.length := by
            rw [heq]; simp
          simp only [List.length_cons] at hlen h
          omega
  intro l hs
  exact H l.length l le_rfl hs

/-- On a list of positive scores, the run-length encoding has positive keys. -/
theorem rle_posKeys {l : List Int} (h : ∀ x ∈ l, 0 < x) : PosKeys (rle l) := by
  intro e he
  obtain ⟨e1, e2⟩ := e
  exact h e1 (rle_mem l e1 e2 he).2

/-! ### The countback walk computes lexicographic comparison of run encodings -/

theorem cbRec_nil_nil : cbRec [] [] = 0 := by
  rw [cbRec]
  simp

theorem cbRec_nil_cons_pos {b : Int} (t2 : List Int) (hb : 0 < b) :
    cbRec [] (b :: t2) = 1 := by
  rw [cbRec]
  simp only [List.headD_nil, List.headD_cons]
  rw [dif_neg (by simp)]
  simp only [show ¬ b < 0 by omega, if_false, hb, if_true]

theorem cbRec_cons_nil_neg {a : Int} (t1 : List Int) (ha : 0 < a) :
    cbRec (a :: t1) [] = -1 := by
  rw [cbRec]
  simp only [List.headD_nil, List.headD_cons]
  rw [dif_neg (by simp)]
  simp only [ha, if_true]

theorem cbRec_cons_cons (a b : Int) (t1 t2 : List Int) :
    cbRec (a :: t1) (b :: t2) =
      if b < a then -1
      else if a < b then 1
      else if a = b ∧ 0 < a then
        if countVal (b :: t2) b < countVal (a :: t1) a then -1
        else if countVal (a :: t1) a < countVal (b :: t2) b then 1
        else cbRec t1 t2
      else cbRec t1 t2 := by
  rw [cbRec]
  rw [dif_neg (by simp)]
  simp only [List.headD_cons, List.tail_cons]
  rfl

/-- Walking a shared leading run of a positive value does not decide the
countback comparison: both counts agree while inside the run. -/
theorem cbRec_burn_run : ∀ (j : Nat) (v : Int) (t1 t2 : List Int), 0 < v →
    (∀ x ∈ t1, x ≠ v) → (∀ x ∈ t2, x ≠ v) →
    cbRec (List.replicate j v ++ t1) (List.replicate j v ++ t2) = cbRec t1 t2 := by
  intro j
  induction j with
  | zero => intro v t1 t2 _ _ _; simp
  | succ j ih =>
    intro v t1 t2 hv h1 h2
    rw [List.replicate_succ, List.cons_append, List.cons_append, cbRec_cons_cons]
    have hc1 : countVal (v :: (List.replicate j v ++ t1)) v = j + 1 := by
      rw [countVal_cons, if_pos rfl, countVal_append, countVal_replicate,
        countVal_eq_zero_of_ne h1]
      omega
    have hc2 : countVal (v :: (List.replicate j v ++ t2)) v = j + 1 := by
      rw [countVal_cons, if_pos rfl, countVal_append, countVal_replicate,
        countVal_eq_zero_of_ne h2]
      omega
    rw [hc1, hc2]
    rw [if_neg (lt_irrefl v), if_neg (lt_irrefl v), if_pos ⟨rfl, hv⟩,
      if_neg (lt_irrefl (j + 1)), if_neg (lt_irrefl (j + 1))]
    exact ih v t1 t2 hv h1 h2

theorem pairCmp_mk (a b : Int) (k1 k2 : Nat) :
    pairCmp (a, k1) (b, k2) =
      if b < a then -1 else if a < b then 1
      else if k2 < k1 then -1 else if k1 < k2 then 1 else 0 := rfl

theorem cbRec_eq_lexCmp : ∀ l1 l2 : List Int, sortedDesc l1 → sortedDesc l2 →
    (∀ x ∈ l1, 0 < x) → (∀ x ∈ l2, 0 < x) →
    cbRec l1 l2 = lexCmp (rle l1) (rle l2) := by
  have H : ∀ n l1 l2 : _, l1.length + l2.length ≤ n → sortedDesc l1 → sortedDesc l2 →
      (∀ x ∈ l1, 0 < x) → (∀ x ∈ l2, 0 < x) →
      cbRec l1 l2 = lexCmp (rle l1) (rle l2) := by
    intro n
    induction n with
    | zero =>
      intro l1 l2 h _ _ _ _
      have h1 : l1 = [] := List.eq_nil_of_length_eq_zero (by omega)
      have h2 : l2 = [] := List.eq_nil_of_length_eq_zero (by omega)
      subst h1; subst h2
      rw [cbRec_nil_nil]
      simp [rle, lexCmp]
    | succ n ih =>
      intro l1 l2 h hs1 hs2 hp1 hp2
      cases l1 with
      | nil =>
        cases l2 with
        | nil =>
          rw [cbRec_nil_nil]
          simp [rle, lexCmp]
        | cons b t2 =>
          have hb : 0 < b := hp2 b (by simp)
          rw [cbRec_nil_cons_pos t2 hb]
          obtain ⟨k, r, hr, _⟩ := rle_cons_head b t2
          rw [hr]
          show (1 : Int) = lexCmp [] ((b, k) :: r)
          have hpc : pairCmp (0 : Int × Nat) (b, k) = 1 := pairCmp_zero_left hb
          simp [lexCmp, Prod.mk_zero_zero, hpc]
      | cons a t1 =>
        have ha : 0 < a := hp1 a (by simp)
        cases l2 with
        | nil =>
          rw [cbRec_cons_nil_neg t1 ha]
          obtain ⟨k, r, hr, _⟩ := rle_cons_head a t1
          rw [hr]
          exact (lexCmp_cons_nil_neg r ha).symm
        | cons b t2 =>
          have hb : 0 < b := hp2 b (by simp)
          obtain ⟨k1, u1, hk1, heq1, hlt1, hsu1⟩ := sorted_run_decomp t1 a hs1
          obtain ⟨k2, u2, hk2, heq2, hlt2, hsu2⟩ := sorted_run_decomp t2 b hs2
          have hrle1 : rle (a :: t1) = (a, k1) :: rle u1 := by
            rw [heq1]
            exact rle_replicate_append k1 a u1 hk1 (fun x hx => ne_of_lt (hlt1 x hx))
          have hrle2 : rle (b :: t2) = (b, k2) :: rle u2 := by
            rw [heq2]
            exact rle_replicate_append k2 b u2 hk2 (fun x hx => ne_of_lt (hlt2 x hx))
          have hc1 : countVal (a :: t1) a = k1 := by
            rw [heq1, countVal_append, countVal_replicate,
              countVal_eq_zero_of_ne (fun x hx => ne_of_lt (hlt1 x hx))]
            omega
          have hc2 : countVal (b :: t2) b = k2 := by
            rw [heq2, countVal_append, countVal_replicate,
              countVal_eq_zero_of_ne (fun x hx => ne_of_lt (hlt2 x hx))]
            omega
          have hpos1 : ∀ x ∈ u1, 0 < x := by
            intro x hx
            exact hp1 x (by rw [heq1]; exact List.mem_append_right _ hx)
          have hpos2 : ∀ x ∈ u2, 0 < x := by
            intro x hx
            exact hp2 x (by rw [heq2]; exact List.mem_append_right _ hx)
          have hlen1 : t1.length + 1 = k1 + u1.length := by
            have := congrArg List.length heq1
            simpa using this
          have hlen2 : t2.length + 1 = k2 + u2.length := by
            have := congrArg List.length heq2
            simpa using this
          rw [cbRec_cons_cons, hrle1, hrle2]
          rcases lt_trichotomy a b with hab | hab | hab
          · rw [if_neg (by omega), if_pos hab]
            have hpc : pairCmp (a, k1) (b, k2) = 1 := by
              rw [pairCmp_mk, if_neg (by omega), if_pos hab]
            simp [lexCmp, hpc]
          · subst hab
            rw [if_neg (lt_irrefl a), if_neg (lt_irrefl a), if_pos ⟨rfl, ha⟩, hc1, hc2]
            rcases lt_trichotomy k1 k2 with hk | hk | hk
            · rw [if_neg (by omega), if_pos hk]
              have hpc : pairCmp (a, k1) (a, k2) = 1 := by
                rw [pairCmp_mk, if_neg (lt_irrefl a), if_neg (lt_irrefl a),
                  if_neg (by omega), if_pos hk]
              simp [lexCmp, hpc]
            · subst hk
              rw [if_neg (lt_irrefl k1), if_neg (lt_irrefl k1)]
              obtain ⟨j, rfl⟩ : ∃ j, k1 = j + 1 := ⟨k1 - 1, by omega⟩
              have ht1 : t1 = List.replicate j a ++ u1 := by
                rw [List.replicate_succ, List.cons_append] at heq1
                exact (List.cons.injEq _ _ _ _ ▸ heq1 : _ ∧ _).2
              have ht2 : t2 = List.replicate j a ++ u2 := by
                rw [List.replicate_succ, List.cons_append] at heq2
                exact (List.cons.injEq _ _ _ _ ▸ heq2 : _ ∧ _).2
              have hburn : cbRec t1 t2 = cbRec u1 u2 := by
                rw [ht1, ht2]
                exact cbRec_burn_run j a u1 u2 ha
                  (fun x hx => ne_of_lt (hlt1 x hx)) (fun x hx => ne_of_lt (hlt2 x hx))
              have hihu : cbRec u1 u2 = lexCmp (rle u1) (rle u2) := by
                apply ih u1 u2 ?_ hsu1 hsu2 hpos1 hpos2
                simp only [List.length_cons] at h
                omega
              have hpc : pairCmp (a, j + 1) (a, j + 1) = 0 := pairCmp_self _
              rw [hburn, hihu]
              simp [lexCmp, hpc]
            · rw [if_pos hk]
              have hpc : pairCmp (a, k1) (a, k2) = -1 := by
                rw [pairCmp_mk, if_neg (lt_irrefl a), if_neg (lt_irrefl a), if_pos hk]
              simp [lexCmp, hpc]
          · rw [if_pos hab]
            have hpc : pairCmp (a, k1) (b, k2) = -1 := by
              rw [pairCmp_mk, if_pos hab]
            simp [lexCmp, hpc]
  intro l1 l2 hs1 hs2 hp1 hp2
  exact H (l1.length + l2.length) l1 l2 le_rfl hs1 hs2 hp1 hp2

theorem my_headD_drop : ∀ (l : List Int) (i : Nat), (l.drop i).headD 0 = l.getD i 0 := by
  intro l
  induction l with
  | nil => intro i; cases i <;> simp
  | cons a t ih =>
    intro i
    cases i with
    | zero => simp
    | succ i => simpa using ih i

theorem my_getD_oob : ∀ (l : List Int) (i : Nat), l.length ≤ i → l.getD i 0 = 0 := by
  intro l
  induction l with
  | nil => intro i _; cases i <;> simp
  | cons a t ih =>
    intro i h
    cases i with
    | zero => simp at h
    | succ i =>
      simp only [List.length_cons] at h
      simpa using ih i (by omega)

theorem my_getD_mem : ∀ (l : List Int) (i : Nat), i < l.length → l.getD i 0 ∈ l := by
  intro l
  induction l with
  | nil => intro i h; simp at h
  | cons a t ih =>
    intro i h
    cases i with
    | zero => simp
    | succ i =>
      simp only [List.length_cons] at h
      have := ih i (by omega)
      simp only [List.getD_cons_succ]
      exact List.mem_cons_of_mem a this


theorem my_take_succ : ∀ (l1 l2 : List Int) (i : Nat), i < l1.length → i < l2.length →
    l1.take i = l2.take i → l1.getD i 0 = l2.getD i 0 →
    l1.take (i + 1) = l2.take (i + 1) := by
  intro l1
  induction l1 with
  | nil => intro l2 i h1 _ _ _; simp at h1
  | cons a t1 ih =>
    intro l2 i h1 h2 htake hv
    cases l2 with
    | nil => simp at h2
    | cons b t2 =>
      cases i with
      | zero =>
        simp only [List.getD_cons_zero] at hv
        simp [hv]
      | succ i =>
        simp only [List.take_succ_cons] at htake ⊢
        obtain ⟨hab, ht⟩ := List.cons.injEq a _ b _ ▸ htake
        simp only [List.length_cons] at h1 h2
        simp only [List.getD_cons_succ] at hv
        rw [hab, ih t2 i (by omega) (by omega) ht hv]

theorem countVal_take_drop (l : List Int) (i : Nat) (v : Int) :
    countVal l v = countVal (l.take i) v + countVal (l.drop i) v := by
  conv_lhs => rw [← List.take_append_drop i l]
  rw [countVal_append]

theorem drop_succ_eq_tail_drop (l : List Int) (i : Nat) : l.drop (i + 1) = (l.drop i).tail := by
  rw [← List.drop_one, List.drop_drop]

theorem cbLoop_zero (f1 f2 : List Int) (i : Nat) : cbLoop f1 f2 0 i = 0 := rfl

theorem cbLoop_succ (f1 f2 : List Int) (fuel i : Nat) :
    cbLoop f1 f2 (fuel + 1) i =
      if f2.getD i 0 < f1.getD i 0 then -1
      else if f1.getD i 0 < f2.getD i 0 then 1
      else if f1.getD i 0 = f2.getD i 0 ∧ 0 < f1.getD i 0 then
        if countVal f2 (f2.getD i 0) < countVal f1 (f1.getD i 0) then -1
        else if countVal f1 (f1.getD i 0) < countVal f2 (f2.getD i 0) then 1
        else cbLoop f1 f2 fuel (i + 1)
      else cbLoop f1 f2 fuel (i + 1) := rfl

theorem cbRec_unfold (l1 l2 : List Int) (hne : ¬(l1 = [] ∧ l2 = [])) :
    cbRec l1 l2 =
      if l2.headD 0 < l1.headD 0 then -1
      else if l1.headD 0 < l2.headD 0 then 1
      else if l1.headD 0 = l2.headD 0 ∧ 0 < l1.headD 0 then
        if countVal l2 (l2.headD 0) < countVal l1 (l1.headD 0) then -1
        else if countVal l1 (l1.headD 0) < countVal l2 (l2.headD 0) then 1
        else cbRec l1.tail l2.tail
      else cbRec l1.tail l2.tail := by
  rw [cbRec, dif_neg hne]
  rfl

/-- The fuelled index walk over the full profiles agrees with the suffix
walk: the positions already passed form an identical prefix on both sides,
so the occurrence counts over the full profiles and over the remaining
suffixes compare identically. -/
theorem cbLoop_eq_cbRec_aux : ∀ (fuel : Nat) (f1 f2 : List Int) (i : Nat),
    fuel + i = max f1.length f2.length → i ≤ f1.length → i ≤ f2.length →
    f1.take i = f2.take i → (∀ x ∈ f1, 0 < x) → (∀ x ∈ f2, 0 < x) →
    cbLoop f1 f2 fuel i = cbRec (f1.drop i) (f2.drop i) := by
  intro fuel
  induction fuel with
  | zero =>
    intro f1 f2 i h h1 h2 _ _ _
    have hd1 : f1.drop i = [] := List.drop_eq_nil_of_le (by omega)
    have hd2 : f2.drop i = [] := List.drop_eq_nil_of_le (by omega)
    rw [cbLoop_zero, hd1, hd2, cbRec_nil_nil]
  | succ fuel ih =>
    intro f1 f2 i h h1 h2 htake hp1 hp2
    have hi : i < max f1.length f2.length := by omega
    have hne : ¬(f1.drop i = [] ∧ f2.drop i = []) := by
      rintro ⟨hd1, hd2⟩
      have ha := congrArg List.length hd1
      have hb := congrArg List.length hd2
      simp only [List.length_drop, List.length_nil] at ha hb
      omega
    rw [cbLoop_succ, cbRec_unfold _ _ hne, my_headD_drop, my_headD_drop]
    rcases lt_trichotomy (f2.getD i 0) (f1.getD i 0) with hlt | heqv | hgt
    · rw [if_pos hlt, if_pos hlt]
    · have hne1 : ¬ (f2.getD i 0 < f1.getD i 0) := by omega
      have hne2 : ¬ (f1.getD i 0 < f2.getD i 0) := by omega
      rw [if_neg hne1, if_neg hne1, if_neg hne2, if_neg hne2, heqv]
      by_cases hpos : 0 < f1.getD i 0
      · have hin1 : i < f1.length := by
          by_contra hc
          rw [my_getD_oob f1 i (by omega)] at hpos
          omega
        have hin2 : i < f2.length := by
          by_contra hc
          rw [my_getD_oob f2 i (by omega)] at heqv
          omega
        have hcond : f1.getD i 0 = f1.getD i 0 ∧ 0 < f1.getD i 0 := ⟨rfl, hpos⟩
        rw [if_pos hcond, if_pos hcond]
        have hctake : countVal (f1.take i) (f1.getD i 0) =
            countVal (f2.take i) (f1.getD i 0) := by rw [htake]
        have he1 := countVal_take_drop f1 i (f1.getD i 0)
        have he2 := countVal_take_drop f2 i (f1.getD i 0)
        rcases lt_trichotomy (countVal (f2.drop i) (f1.getD i 0))
            (countVal (f1.drop i) (f1.getD i 0)) with hc | hc | hc
        · have hfull : countVal f2 (f1.getD i 0) < countVal f1 (f1.getD i 0) := by omega
          rw [if_pos hfull, if_pos hc]
        · have hfne1 : ¬ (countVal f2 (f1.getD i 0) < countVal f1 (f1.getD i 0)) := by
            omega
          have hfne2 : ¬ (countVal f1 (f1.getD i 0) < countVal f2 (f1.getD i 0)) := by
            omega
          have hdne1 : ¬ (countVal (f2.drop i) (f1.getD i 0) <
              countVal (f1.drop i) (f1.getD i 0)) := by omega
          have hdne2 : ¬ (countVal (f1.drop i) (f1.getD i 0) <
              countVal (f2.drop i) (f1.getD i 0)) := by omega
          rw [if_neg hfne1, if_neg hfne2, if_neg hdne1, if_neg hdne2,
            ← drop_succ_eq_tail_drop f1 i, ← drop_succ_eq_tail_drop f2 i]
          exact ih f1 f2 (i + 1) (by omega) (by omega) (by omega)
            (my_take_succ f1 f2 i hin1 hin2 htake heqv.symm) hp1 hp2
        · have hfull : countVal f1 (f1.getD i 0) < countVal f2 (f1.getD i 0) := by omega
          have hfne1 : ¬ (countVal f2 (f1.getD i 0) < countVal f1 (f1.getD i 0)) := by
            omega
          have hdne1 : ¬ (countVal (f2.drop i) (f1.getD i 0) <
              countVal (f1.drop i) (f1.getD i 0)) := by omega
          rw [if_neg hfne1, if_pos hfull, if_neg hdne1, if_pos hc]
      · exfalso
        have hin1 : ¬ i < f1.length := by
          intro hc
          exact hpos (hp1 _ (my_getD_mem f1 i hc))
        have hz1 : f1.getD i 0 = 0 := my_getD_oob f1 i (by omega)
        have hin2 : ¬ i < f2.length := by
          intro hc
          have := hp2 _ (my_getD_mem f2 i hc)
          omega
        omega
    · have hne1 : ¬ (f2.getD i 0 < f1.getD i 0) := by omega
      rw [if_neg hne1, if_neg hne1, if_pos hgt, if_pos hgt]

theorem cbLoop_eq_cbRec (f1 f2 : List Int) (hp1 : ∀ x ∈ f1, 0 < x)
    (hp2 : ∀ x ∈ f2, 0 < x) :
    cbLoop f1 f2 (max f1.length f2.length) 0 = cbRec f1 f2 := by
  have := cbLoop_eq_cbRec_aux (max f1.length f2.length) f1 f2 0 (by omega)
    (by omega) (by omega) (by simp) hp1 hp2
  simpa using this

/-- Central characterization: the countback walk of the source computes the
lexicographic comparison of the run-length encodings of the two descending
positive profiles. -/
theorem countbackCompare_eq_lexCmp (p1 p2 : Player) :
    countbackCompare p1 p2 = lexCmp (rle (profileOf p1)) (rle (profileOf p2)) := by
  unfold countbackCompare
  rw [cbLoop_eq_cbRec _ _ (profileOf_pos p1) (profileOf_pos p2)]
  exact cbRec_eq_lexCmp _ _ (profileOf_sorted p1) (profileOf_sorted p2)
    (profileOf_pos p1) (profileOf_pos p2)

theorem countbackCompare_self (p : Player) : countbackCompare p p = 0 := by
  rw [countbackCompare_eq_lexCmp]
  exact lexCmp_self _

theorem countbackCompare_antisymm (p1 p2 : Player) :
    countbackCompare p2 p1 = -countbackCompare p1 p2 := by
  rw [countbackCompare_eq_lexCmp, countbackCompare_eq_lexCmp]
  exact lexCmp_antisymm _ _

theorem countbackCompare_range (p1 p2 : Player) :
    countbackCompare p1 p2 = -1 ∨ countbackCompare p1 p2 = 0 ∨ countbackCompare p1 p2 = 1 := by
  rw [countbackCompare_eq_lexCmp]
  exact lexCmp_range _ _

theorem countbackCompare_eq_zero_iff_profile_eq (p1 p2 : Player) :
    countbackCompare p1 p2 = 0 ↔ profileOf p1 = profileOf p2 := by
  rw [countbackCompare_eq_lexCmp,
    lexCmp_eq_zero_iff _ _ (rle_posKeys (profileOf_pos p1)) (rle_posKeys (profileOf_pos p2))]
  constructor
  · exact rle_injective
  · intro h; rw [h]

theorem countbackCompare_eq_zero_iff_multiset (p1 p2 : Player) :
    countbackCompare p1 p2 = 0 ↔
      (p1.eventScores.filter (fun s => decide (0 < s)) : Multiset Int) =
      (p2.eventScores.filter (fun s => decide (0 < s)) : Multiset Int) := by
  rw [countbackCompare_eq_zero_iff_profile_eq, Multiset.coe_eq_coe]
  constructor
  · intro h
    exact ((profileOf_perm p1).symm.trans (h ▸ profileOf_perm p2))
  · intro h
    exact sortDesc_eq_of_perm (h.trans (List.Perm.refl _))

theorem countbackCompare_neg_trans {p1 p2 p3 : Player}
    (h12 : countbackCompare p1 p2 < 0) (h23 : countbackCompare p2 p3 < 0) :
    countbackCompare p1 p3 < 0 := by
  rw [countbackCompare_eq_lexCmp] at h12 h23 ⊢
  exact lexCmp_neg_trans _ _ _ (rle_posKeys (profileOf_pos p1))
    (rle_posKeys (profileOf_pos p2)) (rle_posKeys (profileOf_pos p3)) h12 h23

/-- When countback ties, the profiles agree, so comparisons with any third
player coincide. -/
theorem countbackCompare_congr_left {p1 p2 : Player}
    (h : countbackCompare p1 p2 = 0) (p3 : Player) :
    countbackCompare p1 p3 = countbackCompare p2 p3 := by
  have hp := (countbackCompare_eq_zero_iff_profile_eq p1 p2).mp h
  rw [countbackCompare_eq_lexCmp, countbackCompare_eq_lexCmp, hp]

/-! ### The detailed countback walk is lexicographic comparison -/

theorem poly_headD_drop {α : Type} (d : α) : ∀ (l : List α) (i : Nat),
    (l.drop i).headD d = l.getD i d := by
  intro l
  induction l with
  | nil => intro i; cases i <;> simp
  | cons a t ih =>
    intro i
    cases i with
    | zero => simp
    | succ i => simpa using ih i

theorem poly_drop_succ {α : Type} (l : List α) (i : Nat) :
    l.drop (i + 1) = (l.drop i).tail := by
  rw [← List.drop_one, List.drop_drop]

theorem lexCmp_headD (l1 l2 : List (Int × Nat)) (hne : ¬(l1 = [] ∧ l2 = [])) :
    lexCmp l1 l2 =
      if pairCmp (l1.headD (0, 0)) (l2.headD (0, 0)) ≠ 0 then
        pairCmp (l1.headD (0, 0)) (l2.headD (0, 0))
      else lexCmp l1.tail l2.tail := by
  cases l1 with
  | nil =>
    cases l2 with
    | nil => simp at hne
    | cons y t2 => simp [lexCmp]
  | cons x t1 =>
    cases l2 with
    | nil => simp [lexCmp]
    | cons y t2 => simp [lexCmp]

theorem dcAux_unfold (l1 l2 : List (Int × Nat)) (i : Nat)
    (hi : i < max l1.length l2.length) :
    dcAux l1 l2 i =
      if pairCmp (l1.getD i (0, 0)) (l2.getD i (0, 0)) ≠ 0 then
        pairCmp (l1.getD i (0, 0)) (l2.getD i (0, 0))
      else dcAux l1 l2 (i + 1) := by
  rw [dcAux, dif_pos hi]

theorem dcAux_oob (l1 l2 : List (Int × Nat)) (i : Nat)
    (hi : ¬ i < max l1.length l2.length) : dcAux l1 l2 i = 0 := by
  rw [dcAux, dif_neg hi]

theorem dcAux_eq_lexCmp_aux : ∀ (n : Nat) (l1 l2 : List (Int × Nat)) (i : Nat),
    max l1.length l2.length - i ≤ n →
    dcAux l1 l2 i = lexCmp (l1.drop i) (l2.drop i) := by
  intro n
  induction n with
  | zero =>
    intro l1 l2 i h
    have hd1 : l1.drop i = [] := List.drop_eq_nil_of_le (by omega)
    have hd2 : l2.drop i = [] := List.drop_eq_nil_of_le (by omega)
    rw [dcAux_oob l1 l2 i (by omega), hd1, hd2]
    simp [lexCmp]
  | succ n ih =>
    intro l1 l2 i h
    by_cases hi : i < max l1.length l2.length
    · have hne : ¬(l1.drop i = [] ∧ l2.drop i = []) := by
        rintro ⟨hd1, hd2⟩
        have ha := congrArg List.length hd1
        have hb := congrArg List.length hd2
        simp only [List.length_drop, List.length_nil] at ha hb
        omega
      rw [dcAux_unfold l1 l2 i hi, lexCmp_headD _ _ hne,
        poly_headD_drop (0, 0) l1 i, poly_headD_drop (0, 0) l2 i]
      by_cases hc : pairCmp (l1.getD i (0, 0)) (l2.getD i (0, 0)) = 0
      · rw [if_neg (by simpa using hc), if_neg (by simpa using hc),
          ← poly_drop_succ l1 i, ← poly_drop_succ l2 i]
        exact ih l1 l2 (i + 1) (by omega)
      · rw [if_pos hc, if_pos hc]
    · have hd1 : l1.drop i = [] := List.drop_eq_nil_of_le (by omega)
      have hd2 : l2.drop i = [] := List.drop_eq_nil_of_le (by omega)
      rw [dcAux_oob l1 l2 i hi, hd1, hd2]
      simp [lexCmp]

theorem detailedCountback_eq_lexCmp (p1 p2 : Player) :
    detailedCountback p1 p2 = lexCmp (sortedFreq p1) (sortedFreq p2) := by
  unfold detailedCountback
  have := dcAux_eq_lexCmp_aux (max (sortedFreq p1).length (sortedFreq p2).length)
    (sortedFreq p1) (sortedFreq p2) 0 (by omega)
  simpa using this

/-! ### The sorted frequency list is the run encoding of the profile -/

theorem keyCount_cons2 (k : Int) (c : Nat) (r : List (Int × Nat)) (v : Int) :
    keyCount ((k, c) :: r) v = (if k = v then c else 0) + keyCount r v :=
  keyCount_cons (k, c) r v

theorem bumpFreq_keyCount : ∀ (m : List (Int × Nat)) (s v : Int),
    keyCount (bumpFreq m s) v = (if s = v then 1 else 0) + keyCount m v := by
  intro m
  induction m with
  | nil =>
    intro s v
    show keyCount [(s, 1)] v = (if s = v then 1 else 0) + keyCount [] v
    rw [keyCount_cons2, keyCount_nil]
  | cons e t ih =>
    intro s v
    obtain ⟨k, c⟩ := e
    by_cases hks : k = s
    · subst hks
      have hb : bumpFreq ((k, c) :: t) k = (k, c + 1) :: t := by simp [bumpFreq]
      rw [hb, keyCount_cons2, keyCount_cons2]
      split_ifs <;> omega
    · have hb : bumpFreq ((k, c) :: t) s = (k, c) :: bumpFreq t s := by
        simp [bumpFreq, hks]
      rw [hb, keyCount_cons2, keyCount_cons2, ih]
      split_ifs <;> omega

theorem bumpFreq_keys : ∀ (m : List (Int × Nat)) (s : Int),
    (bumpFreq m s).map Prod.fst =
      if s ∈ m.map Prod.fst then m.map Prod.fst else m.map Prod.fst ++ [s] := by
  intro m
  induction m with
  | nil => intro s; simp [bumpFreq]
  | cons e t ih =>
    intro s
    obtain ⟨k, c⟩ := e
    by_cases hks : k = s
    · subst hks
      simp [bumpFreq]
    · have hb : bumpFreq ((k, c) :: t) s = (k, c) :: bumpFreq t s := by
        simp [bumpFreq, hks]
      rw [hb]
      simp only [List.map_cons]
      rw [ih]
      by_cases hmem : s ∈ t.map Prod.fst
      · simp [hmem, Ne.symm hks]
      · simp [hmem, Ne.symm hks]

theorem bumpFreq_counts_pos : ∀ (m : List (Int × Nat)) (s : Int),
    (∀ a b, (a, b) ∈ m → 0 < b) → ∀ a b, (a, b) ∈ bumpFreq m s → 0 < b := by
  intro m
  induction m with
  | nil =>
    intro s _ a b hab
    have : (a, b) ∈ [(s, 1)] := hab
    simp only [List.mem_singleton, Prod.mk.injEq] at this
    omega
  | cons e t ih =>
    intro s hm a b hab
    obtain ⟨k, c⟩ := e
    by_cases hks : k = s
    · subst hks
      have hb : bumpFreq ((k, c) :: t) k = (k, c + 1) :: t := by simp [bumpFreq]
      rw [hb] at hab
      rcases List.mem_cons.mp hab with heq | hmem
      · simp only [Prod.mk.injEq] at heq
        omega
      · exact hm a b (List.mem_cons_of_mem _ hmem)
    · have hb : bumpFreq ((k, c) :: t) s = (k, c) :: bumpFreq t s := by
        simp [bumpFreq, hks]
      rw [hb] at hab
      rcases List.mem_cons.mp hab with heq | hmem
      · simp only [Prod.mk.injEq] at heq
        exact heq.2 ▸ hm k c (by simp)
      · exact ih s (fun x y hxy => hm x y (List.mem_cons_of_mem _ hxy)) a b hmem

/-- Folding step used by `getScoreFrequency`. -/
def freqStep (m : List (Int × Nat)) (s : Int) : List (Int × Nat) :=
  if 0 < s then bumpFreq m s else m

theorem getScoreFrequency_eq_fold (p : Player) :
    getScoreFrequency p = p.eventScores.foldl freqStep [] := rfl

theorem freqFold_keyCount : ∀ (scores : List Int) (m : List (Int × Nat)) (v : Int),
    keyCount (scores.foldl freqStep m) v =
      keyCount m v + countVal (scores.filter (fun s => decide (0 < s))) v := by
  intro scores
  induction scores with
  | nil => intro m v; simp [countVal]
  | cons s t ih =>
    intro m v
    by_cases hs : 0 < s
    · simp only [List.foldl_cons, freqStep, if_pos hs, ih, bumpFreq_keyCount]
      have hf : (s :: t).filter (fun x => decide (0 < x)) =
          s :: t.filter (fun x => decide (0 < x)) := by
        simp [List.filter_cons, hs]
      rw [hf, countVal_cons]
      split_ifs <;> omega
    · simp only [List.foldl_cons, freqStep, if_neg hs, ih]
      have hf : (s :: t).filter (fun x => decide (0 < x)) =
          t.filter (fun x => decide (0 < x)) := by
        simp [List.filter_cons, hs]
      rw [hf]

theorem freqFold_nodup : ∀ (scores : List Int) (m : List (Int × Nat)),
    (m.map Prod.fst).Nodup → ((scores.foldl freqStep m).map Prod.fst).Nodup := by
  intro scores
  induction scores with
  | nil => intro m h; simpa using h
  | cons s t ih =>
    intro m h
    by_cases hs : 0 < s
    · simp only [List.foldl_cons, freqStep, if_pos hs]
      apply ih
      rw [bumpFreq_keys]
      by_cases hmem : s ∈ m.map Prod.fst
      · simpa [hmem] using h
      · simp only [hmem, if_false]
        simp [List.nodup_append, h, hmem]
    · simp only [List.foldl_cons, freqStep, if_neg hs]
      exact ih m h

theorem freqFold_counts_pos : ∀ (scores : List Int) (m : List (Int × Nat)),
    (∀ a b, (a, b) ∈ m → 0 < b) → ∀ a b, (a, b) ∈ scores.foldl freqStep m → 0 < b := by
  intro scores
  induction scores with
  | nil => intro m h a b hab; exact h a b hab
  | cons s t ih =>
    intro m h
    by_cases hs : 0 < s
    · simp only [List.foldl_cons, freqStep, if_pos hs]
      exact ih _ (bumpFreq_counts_pos m s h)
    · simp only [List.foldl_cons, freqStep, if_neg hs]
      exact ih m h

theorem keyCount_eq_zero_of_not_mem_keys : ∀ (m : List (Int × Nat)) (v : Int),
    v ∉ m.map Prod.fst → keyCount m v = 0 := by
  intro m
  induction m with
  | nil => intro v _; rfl
  | cons e t ih =>
    intro v hv
    obtain ⟨a, b⟩ := e
    simp only [List.map_cons, List.mem_cons] at hv
    push_neg at hv
    rw [keyCount_cons2, if_neg (fun h => hv.1 h.symm), ih v hv.2]

theorem mem_iff_keyCount : ∀ (m : List (Int × Nat)), (m.map Prod.fst).Nodup →
    (∀ a b, (a, b) ∈ m → 0 < b) → ∀ (v : Int) (k : Nat),
    ((v, k) ∈ m ↔ keyCount m v = k ∧ 0 < k) := by
  intro m
  induction m with
  | nil =>
    intro _ _ v k
    simp only [List.not_mem_nil, false_iff, keyCount_nil]
    omega
  | cons e t ih =>
    intro hnd hpos v k
    obtain ⟨a, b⟩ := e
    simp only [List.map_cons, List.nodup_cons] at hnd
    have ihk := ih hnd.2 (fun x y hxy => hpos x y (List.mem_cons_of_mem _ hxy))
    rw [keyCount_cons2]
    constructor
    · intro hm
      rcases List.mem_cons.mp hm with heq | hmem
      · simp only [Prod.mk.injEq] at heq
        obtain ⟨rfl, rfl⟩ := heq
        have hz : keyCount t v = 0 := keyCount_eq_zero_of_not_mem_keys t v hnd.1
        have hb : 0 < k := hpos v k (by simp)
        rw [if_pos rfl, hz]
        omega
      · have := (ihk v k).mp hmem
        have hvk : v ∈ t.map Prod.fst := by
          simp only [List.mem_map]
          exact ⟨(v, k), hmem, rfl⟩
        have hav : a ≠ v := fun h => hnd.1 (h ▸ hvk)
        rw [if_neg hav]
        omega
    · intro ⟨hk, hkpos⟩
      by_cases hav : a = v
      · subst hav
        have hz : keyCount t a = 0 := keyCount_eq_zero_of_not_mem_keys t a hnd.1
        rw [if_pos rfl, hz] at hk
        have : b = k := by omega
        subst this
        simp
      · rw [if_neg hav] at hk
        exact List.mem_cons_of_mem _ ((ihk v k).mpr ⟨by omega, hkpos⟩)

instance : IsTotal (Int × Nat) freqLe := by
  constructor
  intro x y
  obtain ⟨x1, x2⟩ := x
  obtain ⟨y1, y2⟩ := y
  have hx : freqLe (x1, x2) (y1, y2) ↔ (y1 < x1 ∨ (x1 = y1 ∧ y2 ≤ x2)) := Iff.rfl
  have hy : freqLe (y1, y2) (x1, x2) ↔ (x1 < y1 ∨ (y1 = x1 ∧ x2 ≤ y2)) := Iff.rfl
  rw [hx, hy]
  omega

instance : IsTrans (Int × Nat) freqLe := by
  constructor
  intro x y z hxy hyz
  obtain ⟨x1, x2⟩ := x
  obtain ⟨y1, y2⟩ := y
  obtain ⟨z1, z2⟩ := z
  have h1 : y1 < x1 ∨ (x1 = y1 ∧ y2 ≤ x2) := hxy
  have h2 : z1 < y1 ∨ (y1 = z1 ∧ z2 ≤ y2) := hyz
  show z1 < x1 ∨ (x1 = z1 ∧ z2 ≤ x2)
  omega

instance : IsAntisymm (Int × Nat) freqLe := by
  constructor
  intro x y hxy hyx
  obtain ⟨x1, x2⟩ := x
  obtain ⟨y1, y2⟩ := y
  have h1 : y1 < x1 ∨ (x1 = y1 ∧ y2 ≤ x2) := hxy
  have h2 : x1 < y1 ∨ (y1 = x1 ∧ x2 ≤ y2) := hyx
  simp only [Prod.mk.injEq]
  constructor <;> omega

theorem keyCount_perm {m1 m2 : List (Int × Nat)} (h : List.Perm m1 m2) (v : Int) :
    keyCount m1 v = keyCount m2 v := by
  simp only [keyCount]
  exact ((h.filter _).map _).sum_eq

theorem sortedFreq_eq_rle_profile (p : Player) :
    sortedFreq p = rle (profileOf p) := by
  have hperm1 : List.Perm (sortedFreq p) (getScoreFrequency p) :=
    List.perm_insertionSort _ _
  have hg_nodup : ((getScoreFrequency p).map Prod.fst).Nodup := by
    rw [getScoreFrequency_eq_fold]
    exact freqFold_nodup _ [] (by simp)
  have hg_pos : ∀ a b, (a, b) ∈ getScoreFrequency p → 0 < b := by
    rw [getScoreFrequency_eq_fold]
    exact freqFold_counts_pos _ [] (by simp)
  have hg_count : ∀ v, keyCount (getScoreFrequency p) v = countVal (profileOf p) v := by
    intro v
    rw [getScoreFrequency_eq_fold, freqFold_keyCount, keyCount_nil,
      countVal_perm (profileOf_perm p) v]
    omega
  have hs_nodup : ((sortedFreq p).map Prod.fst).Nodup :=
    ((hperm1.map Prod.fst).nodup_iff).mpr hg_nodup
  have hs_pos : ∀ a b, (a, b) ∈ sortedFreq p → 0 < b := fun a b hab =>
    hg_pos a b (hperm1.mem_iff.mp hab)
  have hs_count : ∀ v, keyCount (sortedFreq p) v = countVal (profileOf p) v := fun v =>
    (keyCount_perm hperm1 v).trans (hg_count v)
  have hr_strict := rle_keys_strict (profileOf p) (profileOf_sorted p)
  have hr_nodup : ((rle (profileOf p)).map Prod.fst).Nodup := by
    show List.Pairwise (fun a b => a ≠ b) _
    exact (List.pairwise_map).mpr (hr_strict.imp (fun h => ne_of_gt h))
  have hr_pos : ∀ a b, (a, b) ∈ rle (profileOf p) → 0 < b := fun a b hab =>
    (rle_mem _ a b hab).1
  have hr_count : ∀ v, keyCount (rle (profileOf p)) v = countVal (profileOf p) v :=
    keyCount_rle _
  have hmem : ∀ e, e ∈ sortedFreq p ↔ e ∈ rle (profileOf p) := by
    intro e
    obtain ⟨v, k⟩ := e
    rw [mem_iff_keyCount _ hs_nodup hs_pos v k, mem_iff_keyCount _ hr_nodup hr_pos v k,
      hs_count, hr_count]
  have hnd1 : (sortedFreq p).Nodup := hs_nodup.of_map
  have hnd2 : (rle (profileOf p)).Nodup := hr_nodup.of_map
  have hperm : List.Perm (sortedFreq p) (rle (profileOf p)) :=
    (List.perm_ext_iff_of_nodup hnd1 hnd2).mpr hmem
  have hsort1 : List.Pairwise freqLe (sortedFreq p) := List.sorted_insertionSort freqLe _
  have hsort2 : List.Pairwise freqLe (rle (profileOf p)) :=
    hr_strict.imp (fun h => Or.inl h)
  exact List.eq_of_perm_of_sorted hperm hsort1 hsort2

/-- The two countback implementations agree. -/
theorem countbackCompare_eq_detailedCountback (p1 p2 : Player) :
    countbackCompare p1 p2 = detailedCountback p1 p2 := by
  rw [countbackCompare_eq_lexCmp, detailedCountback_eq_lexCmp,
    sortedFreq_eq_rle_profile, sortedFreq_eq_rle_profile]

/-! ### Name comparison -/

theorem strCmp_self : ∀ s : List Char, strCmp s s = 0 := by
  intro s
  induction s with
  | nil => rfl
  | cons a t ih => simp [strCmp, ih]

theorem strCmp_eq_zero_iff : ∀ s t : List Char, strCmp s t = 0 ↔ s = t := by
  intro s
  induction s with
  | nil =>
    intro t
    cases t <;> simp [strCmp]
  | cons a s ih =>
    intro t
    cases t with
    | nil => simp [strCmp]
    | cons b t =>
      simp only [strCmp, List.cons.injEq]
      rcases lt_trichotomy a b with h | h | h
      · rw [if_pos h]
        constructor
        · intro h0; exact absurd h0 (by decide)
        · rintro ⟨rfl, rfl⟩; exact absurd h (lt_irrefl a)
      · subst h
        rw [if_neg (lt_irrefl a), if_neg (lt_irrefl a), ih t]
        simp
      · rw [if_neg (asymm h), if_pos h]
        constructor
        · intro h0; exact absurd h0 (by decide)
        · rintro ⟨rfl, rfl⟩; exact absurd h (lt_irrefl a)

theorem strCmp_antisymm : ∀ s t : List Char, strCmp t s = -strCmp s t := by
  intro s
  induction s with
  | nil => intro t; cases t <;> simp [strCmp]
  | cons a s ih =>
    intro t
    cases t with
    | nil => simp [strCmp]
    | cons b t =>
      simp only [strCmp]
      rcases lt_trichotomy a b with h | h | h
      · rw [if_neg (asymm h), if_pos h, if_pos h]
        decide
      · subst h
        rw [if_neg (lt_irrefl a), if_neg (lt_irrefl a), if_neg (lt_irrefl a),
          if_neg (lt_irrefl a)]
        exact ih t
      · rw [if_pos h, if_neg (asymm h), if_pos h]

theorem strCmp_neg_trans : ∀ s t u : List Char,
    strCmp s t < 0 → strCmp t u < 0 → strCmp s u < 0 := by
  intro s
  induction s with
  | nil =>
    intro t u hst htu
    cases u with
    | nil =>
      exfalso
      cases t with
      | nil => simp [strCmp] at hst
      | cons b t2 => simp [strCmp] at htu
    | cons c u2 => simp [strCmp]
  | cons a s ih =>
    intro t u hst htu
    cases t with
    | nil => simp [strCmp] at hst
    | cons b t2 =>
      cases u with
      | nil => simp [strCmp] at htu
      | cons c u2 =>
        simp only [strCmp] at hst htu ⊢
        rcases lt_trichotomy a b with hab | hab | hab
        · rcases lt_trichotomy b c with hbc | hbc | hbc
          · rw [if_pos (lt_trans hab hbc)]
            omega
          · subst hbc
            rw [if_pos hab]
            omega
          · rw [if_neg (asymm hbc), if_pos hbc] at htu
            omega
        · subst hab
          rcases lt_trichotomy a c with hbc | hbc | hbc
          · rw [if_pos hbc]
            omega
          · subst hbc
            rw [if_neg (lt_irrefl a), if_neg (lt_irrefl a)] at hst htu ⊢
            exact ih t2 u2 hst htu
          · rw [if_neg (asymm hbc), if_pos hbc] at htu
            omega
        · rw [if_neg (asymm hab), if_pos hab] at hst
          omega

theorem nameCmp_self (x : String) : nameCmp x x = 0 := strCmp_self x.data

theorem nameCmp_eq_zero_iff {x y : String} : nameCmp x y = 0 ↔ x = y := by
  unfold nameCmp
  rw [strCmp_eq_zero_iff]
  constructor
  · intro h
    cases x; cases y
    exact congrArg String.mk h
  · intro h; rw [h]

theorem nameCmp_antisymm (x y : String) : nameCmp y x = -nameCmp x y :=
  strCmp_antisymm x.data y.data

theorem nameCmp_neg_trans {x y z : String} (h1 : nameCmp x y < 0) (h2 : nameCmp y z < 0) :
    nameCmp x z < 0 :=
  strCmp_neg_trans x.data y.data z.data h1 h2

/-! ### The composed four-level comparator -/

theorem cmpPlayers_def (a b : Player) :
    cmpPlayers a b =
      if a.totalPoints ≠ b.totalPoints then b.totalPoints - a.totalPoints
      else if a.totalSpending ≠ b.totalSpending then a.totalSpending - b.totalSpending
      else if countbackCompare a b ≠ 0 then countbackCompare a b
      else nameCmp a.name b.name := rfl

theorem cmpPlayers_self (p : Player) : cmpPlayers p p = 0 := by
  rw [cmpPlayers_def, if_neg (by omega), if_neg (by omega),
    if_neg (by rw [countbackCompare_self]; omega), nameCmp_self]

theorem cmpPlayers_antisymm (a b : Player) : cmpPlayers b a = -cmpPlayers a b := by
  have hcb := countbackCompare_antisymm a b
  have hnm := nameCmp_antisymm a.name b.name
  rw [cmpPlayers_def, cmpPlayers_def]
  split_ifs <;> omega

theorem cmpPlayers_eq_zero_iff {a b : Player} :
    cmpPlayers a b = 0 ↔ a.totalPoints = b.totalPoints ∧
      a.totalSpending = b.totalSpending ∧ countbackCompare a b = 0 ∧ a.name = b.name := by
  rw [cmpPlayers_def]
  constructor
  · intro h
    split_ifs at h with h1 h2 h3
    · omega
    · omega
    · omega
    · push_neg at h1 h2 h3
      exact ⟨h1, h2, by omega, nameCmp_eq_zero_iff.mp h⟩
  · rintro ⟨h1, h2, h3, h4⟩
    rw [if_neg (by omega), if_neg (by omega), if_neg (by omega), h4, nameCmp_self]

theorem cmpPlayers_congr_left {a b : Player} (h : cmpPlayers a b = 0) (c : Player) :
    cmpPlayers a c = cmpPlayers b c := by
  obtain ⟨h1, h2, h3, h4⟩ := cmpPlayers_eq_zero_iff.mp h
  rw [cmpPlayers_def, cmpPlayers_def, h1, h2, h4, countbackCompare_congr_left h3 c]

theorem cmpPlayers_congr_right {a b : Player} (h : cmpPlayers a b = 0) (c : Player) :
    cmpPlayers c a = cmpPlayers c b := by
  have ha := cmpPlayers_antisymm c a
  have hb := cmpPlayers_antisymm c b
  have := cmpPlayers_congr_left h c
  omega

/-- Strict form of the composed comparator, one level consulted only when
all higher levels tie. -/
def lt4 (a b : Player) : Prop :=
  b.totalPoints < a.totalPoints ∨
    (a.totalPoints = b.totalPoints ∧
      (a.totalSpending < b.totalSpending ∨
        (a.totalSpending = b.totalSpending ∧
          (countbackCompare a b < 0 ∨
            (countbackCompare a b = 0 ∧ nameCmp a.name b.name < 0)))))

theorem cmpPlayers_neg_iff {a b : Player} : cmpPlayers a b < 0 ↔ lt4 a b := by
  rw [cmpPlayers_def]
  unfold lt4
  split_ifs with h1 h2 h3 <;> [skip; skip; skip; push_neg at h1 h2 h3] <;>
    constructor <;> intro h <;> first | omega | (exfalso; omega)

theorem countbackCompare_congr_right {a b : Player} (h : countbackCompare a b = 0)
    (c : Player) : countbackCompare c a = countbackCompare c b := by
  have ha := countbackCompare_antisymm c a
  have hb := countbackCompare_antisymm c b
  have hab := countbackCompare_antisymm a b
  have := countbackCompare_congr_left (by omega : countbackCompare b a = 0) c
  omega

theorem lt4_trans {a b c : Player} (h1 : lt4 a b) (h2 : lt4 b c) : lt4 a c := by
  unfold lt4 at h1 h2 ⊢
  rcases h1 with hp1 | ⟨hp1, h1⟩
  · rcases h2 with hp2 | ⟨hp2, _⟩
    · exact Or.inl (by omega)
    · exact Or.inl (by omega)
  · rcases h2 with hp2 | ⟨hp2, h2⟩
    · exact Or.inl (by omega)
    · refine Or.inr ⟨by omega, ?_⟩
      rcases h1 with hs1 | ⟨hs1, h1⟩
      · exact Or.inl (by rcases h2 with hs2 | ⟨hs2, _⟩ <;> omega)
      · rcases h2 with hs2 | ⟨hs2, h2⟩
        · exact Or.inl (by omega)
        · refine Or.inr ⟨by omega, ?_⟩
          rcases h1 with hc1 | ⟨hc1, h1⟩
          · rcases h2 with hc2 | ⟨hc2, h2⟩
            · exact Or.inl (countbackCompare_neg_trans hc1 hc2)
            · exact Or.inl (by rw [countbackCompare_congr_right hc2 a] at hc1; exact hc1)
          · rcases h2 with hc2 | ⟨hc2, h2⟩
            · exact Or.inl (by rw [← countbackCompare_congr_left hc1 c] at hc2; exact hc2)
            · refine Or.inr ⟨?_, ?_⟩
              · rw [countbackCompare_congr_left hc1 c]
                exact hc2
              · exact nameCmp_neg_trans h1 h2

theorem cmpPlayers_neg_trans {a b c : Player} (h1 : cmpPlayers a b < 0)
    (h2 : cmpPlayers b c < 0) : cmpPlayers a c < 0 := by
  rw [cmpPlayers_neg_iff] at h1 h2 ⊢
  exact lt4_trans h1 h2

instance : IsTotal Player playerLe := by
  constructor
  intro a b
  have h := cmpPlayers_antisymm a b
  unfold playerLe
  omega

instance : IsTrans Player playerLe := by
  constructor
  intro a b c h1 h2
  unfold playerLe at h1 h2 ⊢
  rcases eq_or_lt_of_le h1 with he1 | hl1
  · rw [← cmpPlayers_congr_left he1 c] at h2
    exact h2
  · rcases eq_or_lt_of_le h2 with he2 | hl2
    · rw [cmpPlayers_congr_right he2 a] at hl1
      omega
    · have := cmpPlayers_neg_trans hl1 hl2
      omega

/-! ### Frame facts: the pipeline only writes rank and isTied -/

/-- Projection onto the fields the ranking engine never writes. -/
def coreOf (p : Player) : String × List Int × List Int × Int × Int :=
  (p.name, p.eventScores, p.eventSpending, p.totalPoints, p.totalSpending)

theorem coreOf_rank (p : Player) (r : Option Nat) : coreOf { p with rank := r } = coreOf p := rfl

theorem coreOf_isTied (p : Player) (b : Bool) : coreOf { p with isTied := b } = coreOf p := rfl

theorem coreOf_eq_iff {p q : Player} : coreOf p = coreOf q ↔
    p.name = q.name ∧ p.eventScores = q.eventScores ∧ p.eventSpending = q.eventSpending ∧
    p.totalPoints = q.totalPoints ∧ p.totalSpending = q.totalSpending := by
  unfold coreOf
  simp [Prod.ext_iff]

theorem countbackCompare_congr_core {p q p2 q2 : Player}
    (hp : p.eventScores = p2.eventScores) (hq : q.eventScores = q2.eventScores) :
    countbackCompare p q = countbackCompare p2 q2 := by
  unfold countbackCompare profileOf
  rw [hp, hq]

theorem cmpPlayers_congr_core {p q p2 q2 : Player}
    (hp : coreOf p = coreOf p2) (hq : coreOf q = coreOf q2) :
    cmpPlayers p q = cmpPlayers p2 q2 := by
  obtain ⟨hp1, hp2, hp3, hp4, hp5⟩ := coreOf_eq_iff.mp hp
  obtain ⟨hq1, hq2, hq3, hq4, hq5⟩ := coreOf_eq_iff.mp hq
  rw [cmpPlayers_def, cmpPlayers_def, hp1, hp4, hp5, hq1, hq4, hq5,
    countbackCompare_congr_core hp2 hq2]

theorem pairwise_of_map_core_eq {R : Player → Player → Prop}
    (hcongr : ∀ p q p2 q2, coreOf p = coreOf p2 → coreOf q = coreOf q2 → R p q → R p2 q2) :
    ∀ l1 l2 : List Player, l1.map coreOf = l2.map coreOf →
    List.Pairwise R l1 → List.Pairwise R l2 := by
  intro l1
  induction l1 with
  | nil =>
    intro l2 hmap _
    cases l2 with
    | nil => simp
    | cons b t2 => simp at hmap
  | cons a t1 ih =>
    intro l2 hmap hp
    cases l2 with
    | nil => simp at hmap
    | cons b t2 =>
      simp only [List.map_cons, List.cons.injEq] at hmap
      obtain ⟨hab, hmap2⟩ := hmap
      rw [List.pairwise_cons] at hp ⊢
      constructor
      · intro y hy
        have hyc : coreOf y ∈ t1.map coreOf := by
          rw [hmap2]
          exact List.mem_map_of_mem coreOf hy
        obtain ⟨x, hx, hxy⟩ := List.mem_map.mp hyc
        exact hcongr a x b y hab hxy (hp.1 x hx)
      · exact ih t2 hmap2 hp.2

theorem assignRanksAux_map_core : ∀ (l : List Player) (i cur : Nat),
    (assignRanksAux i cur l).map coreOf = l.map coreOf := by
  intro l
  induction l with
  | nil => intro i cur; rfl
  | cons p t ih =>
    intro i cur
    cases t with
    | nil => simp [assignRanksAux, coreOf_rank]
    | cons q t2 =>
      simp only [assignRanksAux, List.map_cons]
      rw [ih]
      simp [coreOf_rank]

theorem assignRanksAux_length : ∀ (l : List Player) (i cur : Nat),
    (assignRanksAux i cur l).length = l.length := by
  intro l
  induction l with
  | nil => intro i cur; rfl
  | cons p t ih =>
    intro i cur
    cases t with
    | nil => simp [assignRanksAux]
    | cons q t2 =>
      simp only [assignRanksAux, List.length_cons]
      rw [ih]
      simp

theorem enumFrom_map_core : ∀ (l : List Player) (n : Nat) (f : Nat × Player → Player),
    (∀ i p, coreOf (f (i, p)) = coreOf p) →
    ((l.enumFrom n).map f).map coreOf = l.map coreOf := by
  intro l
  induction l with
  | nil => intro n f _; rfl
  | cons p t ih =>
    intro n f hf
    simp only [List.enumFrom, List.map_cons, List.cons.injEq]
    exact ⟨hf n p, ih (n + 1) f hf⟩

theorem markTiedPlayers_map_core (l : List Player) :
    (markTiedPlayers l).map coreOf = l.map coreOf := by
  unfold markTiedPlayers
  rw [show l.enum = l.enumFrom 0 from rfl]
  exact enumFrom_map_core l 0 _ (fun i p => by split_ifs <;> rfl)

theorem sortPlayers_map_core (l : List Player) :
    (sortPlayers l).map coreOf = (List.insertionSort playerLe l).map coreOf := by
  unfold sortPlayers assignRanks
  rw [markTiedPlayers_map_core, assignRanksAux_map_core]

theorem sortPlayers_core_perm (l : List Player) :
    List.Perm ((sortPlayers l).map coreOf) (l.map coreOf) := by
  rw [sortPlayers_map_core]
  exact (List.perm_insertionSort playerLe l).map coreOf

theorem markTiedPlayers_length (l : List Player) :
    (markTiedPlayers l).length = l.length := by
  unfold markTiedPlayers
  simp

theorem sortPlayers_length (l : List Player) : (sortPlayers l).length = l.length := by
  have h := congrArg List.length (sortPlayers_map_core l)
  simp only [List.length_map] at h
  rw [h, List.length_insertionSort]

/-! ### The full-tie relation -/

/-- Propositional form of `arePlayersTied`. -/
def tiedProp (p q : Player) : Prop :=
  p.totalPoints = q.totalPoints ∧ p.totalSpending = q.totalSpending ∧
    countbackCompare p q = 0

theorem arePlayersTied_iff {p q : Player} : arePlayersTied p q = true ↔ tiedProp p q := by
  unfold arePlayersTied tiedProp
  split_ifs with h1 h2 h3
  · simp only [Bool.false_eq_true, false_iff]
    intro hc
    exact h1 hc.1
  · simp only [Bool.false_eq_true, false_iff]
    intro hc
    exact h2 hc.2.1
  · simp only [Bool.false_eq_true, false_iff]
    intro hc
    exact h3 hc.2.2
  · push_neg at h1 h2 h3
    simp only [true_iff]
    exact ⟨h1, h2, h3⟩

theorem tiedProp_refl (p : Player) : tiedProp p p :=
  ⟨rfl, rfl, countbackCompare_self p⟩

theorem tiedProp_symm {p q : Player} (h : tiedProp p q) : tiedProp q p := by
  obtain ⟨h1, h2, h3⟩ := h
  have := countbackCompare_antisymm p q
  exact ⟨h1.symm, h2.symm, by omega⟩

theorem tiedProp_trans {p q r : Player} (h1 : tiedProp p q) (h2 : tiedProp q r) :
    tiedProp p r := by
  obtain ⟨ha1, ha2, ha3⟩ := h1
  obtain ⟨hb1, hb2, hb3⟩ := h2
  refine ⟨ha1.trans hb1, ha2.trans hb2, ?_⟩
  rw [countbackCompare_congr_left ha3 r]
  exact hb3

/-! ### The four-level ordering relation of the specification -/

/-- Four-level ordering between adjacent competitors as the specification
words it: each level is consulted only when all higher levels are equal. -/
def fourLevelOrdered (x y : Player) : Prop :=
  y.totalPoints < x.totalPoints ∨
    (x.totalPoints = y.totalPoints ∧ x.totalSpending < y.totalSpending) ∨
    (x.totalPoints = y.totalPoints ∧ x.totalSpending = y.totalSpending ∧
      countbackCompare x y < 0) ∨
    (x.totalPoints = y.totalPoints ∧ x.totalSpending = y.totalSpending ∧
      countbackCompare x y = 0 ∧ nameCmp x.name y.name ≤ 0)

theorem playerLe_iff_fourLevel (x y : Player) : playerLe x y ↔ fourLevelOrdered x y := by
  unfold playerLe fourLevelOrdered
  rw [cmpPlayers_def]
  split_ifs with h1 h2 h3 <;> constructor <;> intro h <;> omega

theorem sortPlayers_pairwise_le (l : List Player) :
    List.Pairwise playerLe (sortPlayers l) := by
  have hcongr : ∀ p q p2 q2 : Player, coreOf p = coreOf p2 → coreOf q = coreOf q2 →
      playerLe p q → playerLe p2 q2 := by
    intro p q p2 q2 hp hq h
    unfold playerLe at h ⊢
    rw [← cmpPlayers_congr_core hp hq]
    exact h
  exact pairwise_of_map_core_eq hcongr (List.insertionSort playerLe l) (sortPlayers l)
    (sortPlayers_map_core l).symm (List.sorted_insertionSort playerLe l)

theorem countVal_filter_pos : ∀ (l : List Int) (v : Int),
    countVal (l.filter (fun s => decide (0 < s))) v =
      if 0 < v then countVal l v else 0 := by
  intro l
  induction l with
  | nil => intro v; simp [countVal]
  | cons a t ih =>
    intro v
    by_cases ha : 0 < a
    · have hf : (a :: t).filter (fun s => decide (0 < s)) =
          a :: t.filter (fun s => decide (0 < s)) := by simp [List.filter_cons, ha]
      rw [hf, countVal_cons, countVal_cons, ih]
      split_ifs with h1 h2 <;> omega
    · have hf : (a :: t).filter (fun s => decide (0 < s)) =
          t.filter (fun s => decide (0 < s)) := by simp [List.filter_cons, ha]
      rw [hf, countVal_cons, ih]
      split_ifs with h1 h2 <;> omega

/-! ### Concrete players used by witnesses and counterexamples -/

/-- Sample competitor with scores from the specification scenario. -/
def witnessA : Player :=
  { name := "A", eventScores := [10, 15, 8, 20, 12], eventSpending := [0, 0, 0, 0, 0],
    totalPoints := 65, totalSpending := 0 }

/-- Sample competitor with the same score multiset as `witnessA`. -/
def witnessB : Player :=
  { name := "B", eventScores := [15, 10, 20, 8, 12], eventSpending := [0, 0, 0, 0, 0],
    totalPoints := 65, totalSpending := 0 }

/-- Competitor with a single spread score, the third specification
scenario. -/
def witnessE : Player :=
  { name := "E", eventScores := [50, 0, 0], eventSpending := [0, 0, 0],
    totalPoints := 50, totalSpending := 0 }

/-- Competitor with two medium scores, same total as `witnessE`. -/
def witnessF : Player :=
  { name := "F", eventScores := [25, 25, 0], eventSpending := [0, 0, 0],
    totalPoints := 50, totalSpending := 0 }

/-- Competitor with one negative sentinel score. -/
def negPlayer : Player :=
  { name := "N", eventScores := [-1], eventSpending := [0],
    totalPoints := -1, totalSpending := 0 }

/-- Competitor with no scored events at all. -/
def emptyPlayer : Player :=
  { name := "M", eventScores := [], eventSpending := [],
    totalPoints := 0, totalSpending := 0 }

/-- Competitor whose score and spending arrays have mismatched lengths. -/
def badPlayer : Player :=
  { name := "X", eventScores := [1], eventSpending := [],
    totalPoints := 1, totalSpending := 0 }

/-! ### Claim theorems -/

/-- C1: for every input list, every adjacent pair (x, y) of the output of
`sortPlayers` is ordered by the composed four-level comparator: either x has
strictly more total points, or totals tie and x spent strictly less, or
both tie and countback favours x, or all three levels tie and x's name does
not come after y's; each level is consulted only when all higher levels are
equal. -/
theorem claim_C1 (l : List Player) : List.Chain' fourLevelOrdered (sortPlayers l) :=
  ((sortPlayers_pairwise_le l).imp
    (fun h => (playerLe_iff_fourLevel _ _).mp h)).chain'

/-- C5: the composed four-level comparator is a strict total order on
competitors with distinct names: irreflexive, transitive, never exactly
zero between players with different names, and total on such players. -/
theorem claim_C5 :
    (∀ a : Player, ¬ cmpPlayers a a < 0) ∧
    (∀ a b c : Player, cmpPlayers a b < 0 → cmpPlayers b c < 0 → cmpPlayers a c < 0) ∧
    (∀ a b : Player, cmpPlayers a b = 0 → a.name = b.name) ∧
    (∀ a b : Player, a.name ≠ b.name → cmpPlayers a b < 0 ∨ 0 < cmpPlayers a b) := by
  refine ⟨?_, ?_, ?_, ?_⟩
  · intro a
    rw [cmpPlayers_self a]
    omega
  · intro a b c h1 h2
    exact cmpPlayers_neg_trans h1 h2
  · intro a b h
    exact (cmpPlayers_eq_zero_iff.mp h).2.2.2
  · intro a b hname
    by_contra hc
    push_neg at hc
    have hz : cmpPlayers a b = 0 := by omega
    exact hname (cmpPlayers_eq_zero_iff.mp hz).2.2.2

/-- Witness for C5 at concrete competitors with distinct names. -/
theorem claim_C5_witness :
    cmpPlayers witnessA witnessB < 0 ∨ 0 < cmpPlayers witnessA witnessB :=
  claim_C5.2.2.2 witnessA witnessB (by decide)

/-- C6 counterexample: a negative (hence non-zero) score is discarded when
the performance profile is built, and does not participate in the
comparison: a player whose only score is -1 has an empty profile and
compares countback-tied with a player who has no scores at all. -/
theorem claim_C6_counterexample :
    (-1 : Int) ∈ negPlayer.eventScores ∧ (-1 : Int) ≠ 0 ∧
    profileOf negPlayer = [] ∧ countbackCompare negPlayer emptyPlayer = 0 := by
  decide

/-- C6 amended: the profile used by `countbackCompare` retains exactly the
strictly positive entries of `eventScores` with their multiplicities; zero
and negative entries never participate. -/
theorem claim_C6_amended (p : Player) (v : Int) :
    countVal (profileOf p) v = if 0 < v then countVal p.eventScores v else 0 := by
  rw [countVal_perm (profileOf_perm p), countVal_filter_pos]

/-- C7: appending any number of zero-valued scores to either competitor's
`eventScores` leaves `countbackCompare` unchanged. -/
theorem claim_C7 (a b : Player) (zs ws : List Int)
    (hz : ∀ z ∈ zs, z = 0) (hw : ∀ w ∈ ws, w = 0) :
    countbackCompare { a with eventScores := a.eventScores ++ zs }
      { b with eventScores := b.eventScores ++ ws } = countbackCompare a b := by
  have hfz : zs.filter (fun s => decide (0 < s)) = [] := by
    rw [List.filter_eq_nil_iff]
    intro z hzz
    simp [hz z hzz]
  have hfw : ws.filter (fun s => decide (0 < s)) = [] := by
    rw [List.filter_eq_nil_iff]
    intro w hww
    simp [hw w hww]
  have hpa : profileOf { a with eventScores := a.eventScores ++ zs } = profileOf a := by
    unfold profileOf
    simp only [List.filter_append, hfz, List.append_nil]
  have hpb : profileOf { b with eventScores := b.eventScores ++ ws } = profileOf b := by
    unfold profileOf
    simp only [List.filter_append, hfw, List.append_nil]
  unfold countbackCompare
  rw [hpa, hpb]

/-- Witness for C7 at concrete competitors and padding. -/
theorem claim_C7_witness :
    countbackCompare { witnessE with eventScores := witnessE.eventScores ++ [0, 0] }
      { witnessF with eventScores := witnessF.eventScores ++ [0] } =
      countbackCompare witnessE witnessF :=
  claim_C7 witnessE witnessF [0, 0] [0] (by decide) (by decide)

/-- C8: `sortPlayers` returns a permutation of exactly the competitor
records it was given, and the only fields it writes are `rank` and
`isTied`: the multiset of (name, eventScores, eventSpending, totalPoints,
totalSpending) projections of the output equals that of the input. -/
theorem claim_C8 (l : List Player) :
    List.Perm ((sortPlayers l).map coreOf) (l.map coreOf) :=
  sortPlayers_core_perm l

/-- C9: the two countback implementations agree on every pair of players:
the position-by-position walk with occurrence-count tiebreaks equals the
lexicographic comparison of the sorted (score, count) frequency
encodings. -/
theorem claim_C9 (p1 p2 : Player) : countbackCompare p1 p2 = detailedCountback p1 p2 :=
  countbackCompare_eq_detailedCountback p1 p2

/-- C10: countback ties exactly when the multisets of strictly positive
scores agree, and consequently the full-tie relation tested by
`arePlayersTied` is an equivalence relation. -/
theorem claim_C10 :
    (∀ a b : Player, countbackCompare a b = 0 ↔
      ((a.eventScores.filter (fun s => decide (0 < s)) : Multiset Int) =
       (b.eventScores.filter (fun s => decide (0 < s)) : Multiset Int))) ∧
    Equivalence (fun p q : Player => arePlayersTied p q = true) := by
  constructor
  · exact countbackCompare_eq_zero_iff_multiset
  · constructor
    · intro p
      exact arePlayersTied_iff.mpr (tiedProp_refl p)
    · intro p q h
      exact arePlayersTied_iff.mpr (tiedProp_symm (arePlayersTied_iff.mp h))
    · intro p q r h1 h2
      exact arePlayersTied_iff.mpr
        (tiedProp_trans (arePlayersTied_iff.mp h1) (arePlayersTied_iff.mp h2))

/-! ### The first three ordering levels, which alone determine ranks -/

/-- Strict ordering on the first three levels (points, spending, countback);
name is deliberately not consulted. -/
def lt3 (q p : Player) : Prop :=
  p.totalPoints < q.totalPoints ∨
    (q.totalPoints = p.totalPoints ∧
      (q.totalSpending < p.totalSpending ∨
        (q.totalSpending = p.totalSpending ∧ countbackCompare q p < 0)))

instance : ∀ q p : Player, Decidable (lt3 q p) := fun q p => by
  unfold lt3
  exact inferInstance

/-- Adjacent players differ on one of the first three levels. -/
def differs3 (x y : Player) : Prop :=
  x.totalPoints ≠ y.totalPoints ∨ x.totalSpending ≠ y.totalSpending ∨
    countbackCompare x y ≠ 0

instance : ∀ x y : Player, Decidable (differs3 x y) := fun x y => by
  unfold differs3
  exact inferInstance

theorem differs3_iff_not_tied {x y : Player} : differs3 x y ↔ ¬ tiedProp x y := by
  unfold differs3 tiedProp
  constructor
  · intro h hc
    rcases h with h | h | h <;> [exact h hc.1; exact h hc.2.1; exact h hc.2.2]
  · intro h
    by_contra hc
    push_neg at hc
    exact h ⟨hc.1, hc.2.1, hc.2.2⟩

theorem cmpPlayers_neg_iff_lt3 {q p : Player} :
    cmpPlayers q p < 0 ↔ lt3 q p ∨ (tiedProp q p ∧ nameCmp q.name p.name < 0) := by
  rw [cmpPlayers_def]
  unfold lt3 tiedProp
  split_ifs with h1 h2 h3 <;> constructor <;> intro h <;> omega

theorem playerLe_iff_lt3 {q p : Player} :
    playerLe q p ↔ lt3 q p ∨ (tiedProp q p ∧ nameCmp q.name p.name ≤ 0) := by
  unfold playerLe
  rw [cmpPlayers_def]
  unfold lt3 tiedProp
  split_ifs with h1 h2 h3 <;> constructor <;> intro h <;> omega

theorem lt3_irrefl (p : Player) : ¬ lt3 p p := by
  unfold lt3
  have := countbackCompare_self p
  omega

theorem lt3_asymm {q p : Player} (h : lt3 q p) : ¬ lt3 p q := by
  unfold lt3 at h ⊢
  have := countbackCompare_antisymm q p
  omega

theorem lt3_of_tied_of_lt3 {x p q : Player} (ht : tiedProp x p) (h : lt3 p q) : lt3 x q := by
  obtain ⟨h1, h2, h3⟩ := ht
  unfold lt3 at h ⊢
  have := countbackCompare_congr_left h3 q
  omega

theorem lt3_of_lt3_of_tied {x p q : Player} (h : lt3 x p) (ht : tiedProp p q) : lt3 x q := by
  obtain ⟨h1, h2, h3⟩ := ht
  unfold lt3 at h ⊢
  have := countbackCompare_congr_right h3 x
  omega

theorem lt3_trans {x p q : Player} (h1 : lt3 x p) (h2 : lt3 p q) : lt3 x q := by
  unfold lt3 at h1 h2 ⊢
  rcases h1 with hp1 | ⟨hp1, h1⟩
  · rcases h2 with hp2 | ⟨hp2, _⟩ <;> [left; left] <;> omega
  · rcases h2 with hp2 | ⟨hp2, h2⟩
    · left; omega
    · right
      refine ⟨by omega, ?_⟩
      rcases h1 with hs1 | ⟨hs1, h1⟩
      · rcases h2 with hs2 | ⟨hs2, _⟩ <;> left <;> omega
      · rcases h2 with hs2 | ⟨hs2, h2⟩
        · left; omega
        · right
          exact ⟨by omega, countbackCompare_neg_trans h1 h2⟩

theorem not_lt3_of_playerLe {q p : Player} (h : playerLe q p) : ¬ lt3 p q := by
  intro hc
  rcases playerLe_iff_lt3.mp h with h1 | ⟨h1, _⟩
  · exact lt3_asymm hc h1
  · exact lt3_irrefl p (lt3_of_lt3_of_tied hc h1)

theorem lt3_congr_right {p q : Player} (ht : tiedProp p q) (x : Player) :
    lt3 x p ↔ lt3 x q :=
  ⟨fun h => lt3_of_lt3_of_tied h ht, fun h => lt3_of_lt3_of_tied h (tiedProp_symm ht)⟩

theorem lt3_congr_core {q p q2 p2 : Player} (hq : coreOf q = coreOf q2)
    (hp : coreOf p = coreOf p2) : lt3 q p ↔ lt3 q2 p2 := by
  obtain ⟨hq1, hq2, hq3, hq4, hq5⟩ := coreOf_eq_iff.mp hq
  obtain ⟨hp1, hp2, hp3, hp4, hp5⟩ := coreOf_eq_iff.mp hp
  unfold lt3
  rw [hq4, hq5, hp4, hp5, countbackCompare_congr_core hq2 hp2]

theorem countP_ext (l : List Player) (f g : Player → Bool) (h : ∀ a, f a = g a) :
    l.countP f = l.countP g :=
  congrArg l.countP (funext h)

theorem rankStep_eq (p q : Player) (i cur : Nat) :
    (if p.totalPoints ≠ q.totalPoints then i + 2
     else if p.totalSpending ≠ q.totalSpending ∨ countbackCompare p q ≠ 0 then i + 2
     else cur) = if differs3 p q then i + 2 else cur := by
  unfold differs3
  split_ifs <;> omega

/-- Each player assigned by the rank walk receives exactly one more than
the number of players of the whole (sorted) list strictly above it on the
first three levels.  `pre` is the already-processed prefix; the invariant
carries the pending rank value for the head of the remaining suffix. -/
theorem assignRanksAux_rank_count :
    ∀ (rest pre : List Player) (cur : Nat),
    List.Pairwise playerLe (pre ++ rest) →
    (∀ p, rest.head? = some p →
      cur = 1 + (pre ++ rest).countP (fun q => decide (lt3 q p))) →
    ∀ r ∈ assignRanksAux pre.length cur rest,
      r.rank = some (1 + (pre ++ rest).countP (fun q => decide (lt3 q r))) := by
  intro rest
  induction rest with
  | nil =>
    intro pre cur _ _ r hr
    simp [assignRanksAux] at hr
  | cons p rest' ih =>
    intro pre cur hsort hinv r hr
    cases rest' with
    | nil =>
      simp only [assignRanksAux, List.mem_singleton] at hr
      subst hr
      have h1 := hinv p rfl
      show some cur = some (1 + (pre ++ [p]).countP (fun q => decide (lt3 q p)))
      rw [h1]
    | cons w t =>
      simp only [assignRanksAux, List.mem_cons] at hr
      rcases hr with hr | hr
      · subst hr
        have h1 := hinv p rfl
        show some cur = some (1 + (pre ++ p :: w :: t).countP (fun q => decide (lt3 q p)))
        rw [h1]
      · have hassoc : (pre ++ [p]) ++ (w :: t) = pre ++ p :: w :: t := by
          rw [List.append_assoc]
          rfl
        have hlen : (pre ++ [p]).length = pre.length + 1 := by simp
        have hsort2 : List.Pairwise playerLe ((pre ++ [p]) ++ (w :: t)) := by
          rw [hassoc]
          exact hsort
        have hadj : playerLe p w := by
          have hsuf : List.Pairwise playerLe (p :: w :: t) :=
            (List.pairwise_append.mp hsort).2.1
          exact (List.pairwise_cons.mp hsuf).1 w (by simp)
        have hinv2 : ∀ x, (w :: t).head? = some x →
            (if p.totalPoints ≠ w.totalPoints then pre.length + 2
             else if p.totalSpending ≠ w.totalSpending ∨ countbackCompare p w ≠ 0 then
               pre.length + 2
             else cur) =
              1 + ((pre ++ [p]) ++ (w :: t)).countP (fun q => decide (lt3 q x)) := by
          intro x hx
          simp only [List.head?_cons, Option.some.injEq] at hx
          subst hx
          rw [rankStep_eq, hassoc]
          by_cases hd : differs3 p w
          · rw [if_pos hd]
            have hlt : lt3 p w := by
              rcases playerLe_iff_lt3.mp hadj with h | ⟨h, _⟩
              · exact h
              · exact absurd h (differs3_iff_not_tied.mp hd)
            have hcount : (pre ++ p :: w :: t).countP (fun q => decide (lt3 q w)) =
                pre.length + 1 := by
              rw [List.countP_append]
              have hpre : pre.countP (fun q => decide (lt3 q w)) = pre.length := by
                rw [List.countP_eq_length]
                intro x hx
                have hxle : playerLe x p := by
                  have := (List.pairwise_append.mp hsort).2.2
                  exact this x hx p (by simp)
                rcases playerLe_iff_lt3.mp hxle with h | ⟨h, _⟩
                · simpa using lt3_trans h hlt
                · simpa using lt3_of_tied_of_lt3 h hlt
              have hsufc : (p :: w :: t).countP (fun q => decide (lt3 q w)) = 1 := by
                have hsuf : List.Pairwise playerLe (p :: w :: t) :=
                  (List.pairwise_append.mp hsort).2.1
                have hwt : List.Pairwise playerLe (w :: t) :=
                  (List.pairwise_cons.mp hsuf).2
                rw [List.countP_cons, List.countP_cons]
                have ht0 : t.countP (fun q => decide (lt3 q w)) = 0 := by
                  rw [List.countP_eq_zero]
                  intro x hx
                  have : playerLe w x := (List.pairwise_cons.mp hwt).1 x hx
                  simpa using not_lt3_of_playerLe this
                rw [ht0]
                simp [hlt, lt3_irrefl w]
              omega
            rw [hcount]
            omega
          · rw [if_neg hd]
            have htied : tiedProp p w := by
              by_contra hc
              exact hd (differs3_iff_not_tied.mpr hc)
            have h1 := hinv p rfl
            have hco : (pre ++ p :: w :: t).countP (fun q => decide (lt3 q p)) =
                (pre ++ p :: w :: t).countP (fun q => decide (lt3 q w)) := by
              apply countP_ext
              intro a
              simp only [decide_eq_decide]
              exact lt3_congr_right htied a
            omega
        have := ih (pre ++ [p])
          (if p.totalPoints ≠ w.totalPoints then pre.length + 2
           else if p.totalSpending ≠ w.totalSpending ∨ countbackCompare p w ≠ 0 then
             pre.length + 2
           else cur) hsort2 hinv2 r (by rw [hlen]; exact hr)
        rw [hassoc] at this
        exact this

theorem differs3_congr_core {x y x2 y2 : Player} (hx : coreOf x = coreOf x2)
    (hy : coreOf y = coreOf y2) : differs3 x y ↔ differs3 x2 y2 := by
  obtain ⟨_, hx2, _, hx4, hx5⟩ := coreOf_eq_iff.mp hx
  obtain ⟨_, hy2, _, hy4, hy5⟩ := coreOf_eq_iff.mp hy
  unfold differs3
  rw [hx4, hx5, hy4, hy5, countbackCompare_congr_core hx2 hy2]

theorem assignRanksAux_head_rank : ∀ (rest : List Player) (i cur : Nat)
    (h : 0 < (assignRanksAux i cur rest).length),
    ((assignRanksAux i cur rest).get ⟨0, h⟩).rank = some cur := by
  intro rest i cur h
  cases rest with
  | nil => simp [assignRanksAux] at h
  | cons p t =>
    cases t with
    | nil => simp [assignRanksAux]
    | cons w t2 => simp [assignRanksAux]

theorem assignRanksAux_get_core (rest : List Player) (i cur j : Nat)
    (h : j < (assignRanksAux i cur rest).length) (h' : j < rest.length) :
    coreOf ((assignRanksAux i cur rest).get ⟨j, h⟩) = coreOf (rest.get ⟨j, h'⟩) := by
  have hm := assignRanksAux_map_core rest i cur
  have hji : j < ((assignRanksAux i cur rest).map coreOf).length := by
    rw [List.length_map]
    exact h
  have hji2 : j < (rest.map coreOf).length := by
    rw [List.length_map]
    exact h'
  have h1 : ((assignRanksAux i cur rest).map coreOf)[j] =
      coreOf ((assignRanksAux i cur rest).get ⟨j, h⟩) := by
    rw [List.getElem_map]
    rfl
  have h2 : (rest.map coreOf)[j] = coreOf (rest.get ⟨j, h'⟩) := by
    rw [List.getElem_map]
    rfl
  rw [← h1, ← h2]
  exact List.getElem_of_eq hm hji

theorem assignRanksAux_head_rank_elem (rest : List Player) (i cur : Nat)
    (h : 0 < (assignRanksAux i cur rest).length) :
    ((assignRanksAux i cur rest)[0]).rank = some cur := by
  have := assignRanksAux_head_rank rest i cur h
  simpa [List.get_eq_getElem] using this

theorem assignRanksAux_rank_rec : ∀ (rest : List Player) (i cur j : Nat)
    (hj : j + 1 < rest.length),
    ((assignRanksAux i cur rest).get
        ⟨j + 1, by rw [assignRanksAux_length]; exact hj⟩).rank =
      if differs3 (rest.get ⟨j, by omega⟩) (rest.get ⟨j + 1, hj⟩) then some (i + j + 2)
      else ((assignRanksAux i cur rest).get
        ⟨j, by rw [assignRanksAux_length]; omega⟩).rank := by
  intro rest
  induction rest with
  | nil => intro i cur j hj; simp at hj
  | cons p t ih =>
    intro i cur j hj
    cases t with
    | nil => simp at hj
    | cons w t2 =>
      have hout : assignRanksAux i cur (p :: w :: t2) =
          { p with rank := some cur } ::
            assignRanksAux (i + 1)
              (if p.totalPoints ≠ w.totalPoints then i + 2
               else if p.totalSpending ≠ w.totalSpending ∨ countbackCompare p w ≠ 0 then
                 i + 2
               else cur) (w :: t2) := rfl
      cases j with
      | zero =>
        simp only [List.get_eq_getElem, List.getElem_cons_zero, List.getElem_cons_succ,
          hout]
        rw [assignRanksAux_head_rank_elem]
        rw [rankStep_eq p w i cur]
        split_ifs with hd
        · rfl
        · rfl
      | succ j =>
        have hj2 : j + 1 < (w :: t2).length := by
          simp only [List.length_cons] at hj ⊢
          omega
        have hrec := ih (i + 1) (if p.totalPoints ≠ w.totalPoints then i + 2
            else if p.totalSpending ≠ w.totalSpending ∨ countbackCompare p w ≠ 0 then i + 2
            else cur) j hj2
        simp only [List.get_eq_getElem, List.getElem_cons_succ] at hrec ⊢
        simp only [hout, List.getElem_cons_succ]
        rw [hrec]
        split_ifs <;> first | rfl | (congr 1; omega)

theorem markTied_getElem (l : List Player) (j : Nat) (h : j < (markTiedPlayers l).length)
    (h' : j < l.length) :
    (markTiedPlayers l)[j] =
      if j ∈ (findTieGroups l).flatten then { l[j] with isTied := true }
      else l[j] := by
  unfold markTiedPlayers
  have hj : j < l.enum.length := by
    rw [List.enum_length]
    exact h'
  rw [List.getElem_map, List.getElem_enum]

theorem markTied_getElem_rank (l : List Player) (j : Nat)
    (h : j < (markTiedPlayers l).length) (h' : j < l.length) :
    ((markTiedPlayers l)[j]).rank = (l[j]).rank := by
  rw [markTied_getElem l j h h']
  split_ifs <;> rfl

theorem markTied_getElem_core (l : List Player) (j : Nat)
    (h : j < (markTiedPlayers l).length) (h' : j < l.length) :
    coreOf ((markTiedPlayers l)[j]) = coreOf (l[j]) := by
  rw [markTied_getElem l j h h']
  split_ifs <;> rfl

theorem sortPlayers_getElem_rank (l : List Player) (j : Nat)
    (h : j < (sortPlayers l).length)
    (h2 : j < (assignRanks (List.insertionSort playerLe l)).length) :
    ((sortPlayers l)[j]).rank = ((assignRanks (List.insertionSort playerLe l))[j]).rank := by
  unfold sortPlayers
  exact markTied_getElem_rank (assignRanks (List.insertionSort playerLe l)) j
    (by unfold sortPlayers at h; exact h) h2

theorem sortPlayers_getElem_core (l : List Player) (j : Nat)
    (h : j < (sortPlayers l).length)
    (h2 : j < (List.insertionSort playerLe l).length) :
    coreOf ((sortPlayers l)[j]) = coreOf ((List.insertionSort playerLe l)[j]) := by
  unfold sortPlayers
  have h3 : j < (markTiedPlayers (assignRanks (List.insertionSort playerLe l))).length := by
    unfold sortPlayers at h
    exact h
  have h4 : j < (assignRanks (List.insertionSort playerLe l)).length := by
    unfold assignRanks
    rw [assignRanksAux_length]
    exact h2
  rw [markTied_getElem_core _ j h3 h4]
  unfold assignRanks
  have := assignRanksAux_get_core (List.insertionSort playerLe l) 0 1 j
    (by rw [assignRanksAux_length]; exact h2) h2
  simpa [List.get_eq_getElem] using this

theorem markTied_mem_cases {l : List Player} {r : Player} (hr : r ∈ markTiedPlayers l) :
    ∃ q ∈ l, r = q ∨ r = { q with isTied := true } := by
  unfold markTiedPlayers at hr
  simp only [List.mem_map] at hr
  obtain ⟨⟨i, q⟩, hiq, hfq⟩ := hr
  refine ⟨q, ?_, ?_⟩
  · have hsnd : q ∈ l.enum.map Prod.snd := List.mem_map_of_mem Prod.snd hiq
    rwa [List.enum_map_snd] at hsnd
  · dsimp only at hfq
    split_ifs at hfq
    · exact Or.inr hfq.symm
    · exact Or.inl hfq.symm

/-- Every competitor in the output carries rank 1 plus the number of input
competitors strictly above it on the first three ordering levels.  Names
appear nowhere in this characterization, so the name level never affects
any assigned rank. -/
theorem sortPlayers_rank_count (l : List Player) :
    ∀ r ∈ sortPlayers l, r.rank = some (1 + l.countP (fun q => decide (lt3 q r))) := by
  intro r hr
  unfold sortPlayers at hr
  obtain ⟨q, hq, hrq⟩ := markTied_mem_cases hr
  have hS : List.Pairwise playerLe (List.insertionSort playerLe l) :=
    List.sorted_insertionSort playerLe l
  have hinv : ∀ p, (List.insertionSort playerLe l).head? = some p →
      (1 : Nat) = 1 +
        (List.insertionSort playerLe l).countP (fun x => decide (lt3 x p)) := by
    intro p hp
    obtain ⟨t, ht⟩ : ∃ t, List.insertionSort playerLe l = p :: t := by
      cases hS0 : List.insertionSort playerLe l with
      | nil => rw [hS0] at hp; simp at hp
      | cons a t =>
        rw [hS0] at hp
        simp only [List.head?_cons, Option.some.injEq] at hp
        exact ⟨t, by rw [hp]⟩
    have hzero : (List.insertionSort playerLe l).countP (fun x => decide (lt3 x p)) = 0 := by
      rw [List.countP_eq_zero]
      intro x hx
      rw [ht] at hx
      rcases List.mem_cons.mp hx with rfl | hx2
      · simpa using lt3_irrefl x
      · have hle : playerLe p x := by
          rw [ht] at hS
          exact (List.pairwise_cons.mp hS).1 x hx2
        simpa using not_lt3_of_playerLe hle
    omega
  have hcount := assignRanksAux_rank_count (List.insertionSort playerLe l) [] 1
    (by simpa using hS) (by simpa using hinv) q (by simpa using hq)
  simp only [List.nil_append] at hcount
  have hrank : r.rank = q.rank := by
    rcases hrq with rfl | rfl <;> rfl
  have hfun : (fun x => decide (lt3 x r)) = (fun x => decide (lt3 x q)) := by
    rcases hrq with rfl | rfl <;> rfl
  rw [hrank, hfun, hcount]
  have hperm : (List.insertionSort playerLe l).countP (fun x => decide (lt3 x q)) =
      l.countP (fun x => decide (lt3 x q)) :=
    (List.perm_insertionSort playerLe l).countP_eq _
  rw [hperm]

/-- C2: ranks follow dense competition ranking.  The first competitor gets
rank 1; each later competitor at 0-based position i+1 (1-based position
i+2) gets rank i+2 when it differs from its predecessor in total points,
total spending, or under countback, and otherwise inherits the
predecessor's rank.  The third conjunct characterizes every rank as 1 plus
the number of input competitors strictly above on the first three levels —
a name-free description, so name order (level 4) never affects any
assigned rank. -/
theorem claim_C2 (l : List Player) :
    (∀ h0 : 0 < (sortPlayers l).length, ((sortPlayers l)[0]).rank = some 1) ∧
    (∀ (i : Nat) (h : i + 1 < (sortPlayers l).length),
      ((sortPlayers l)[i + 1]).rank =
        if differs3 ((sortPlayers l)[i]) ((sortPlayers l)[i + 1]) then some (i + 2)
        else ((sortPlayers l)[i]).rank) ∧
    (∀ r ∈ sortPlayers l, r.rank = some (1 + l.countP (fun q => decide (lt3 q r)))) := by
  have hlenS : (List.insertionSort playerLe l).length = l.length :=
    List.length_insertionSort playerLe l
  have hlenR : (assignRanks (List.insertionSort playerLe l)).length = l.length := by
    unfold assignRanks
    rw [assignRanksAux_length, hlenS]
  have hlenO : (sortPlayers l).length = l.length := sortPlayers_length l
  refine ⟨?_, ?_, sortPlayers_rank_count l⟩
  · intro h0
    have h2 : 0 < (assignRanks (List.insertionSort playerLe l)).length := by omega
    rw [sortPlayers_getElem_rank l 0 h0 h2]
    unfold assignRanks
    exact assignRanksAux_head_rank_elem _ 0 1 (by unfold assignRanks at h2; exact h2)
  · intro i h
    have hSb : i + 1 < (List.insertionSort playerLe l).length := by omega
    have h2 : i + 1 < (assignRanks (List.insertionSort playerLe l)).length := by omega
    rw [sortPlayers_getElem_rank l (i + 1) h h2]
    have hrec := assignRanksAux_rank_rec (List.insertionSort playerLe l) 0 1 i hSb
    simp only [List.get_eq_getElem] at hrec
    unfold assignRanks
    rw [hrec]
    have hc1 : coreOf ((sortPlayers l)[i]) =
        coreOf ((List.insertionSort playerLe l)[i]) :=
      sortPlayers_getElem_core l i (by omega) (by omega)
    have hc2 : coreOf ((sortPlayers l)[i + 1]) =
        coreOf ((List.insertionSort playerLe l)[i + 1]) :=
      sortPlayers_getElem_core l (i + 1) (by omega) (by omega)
    have hdiff : differs3 ((List.insertionSort playerLe l)[i])
        ((List.insertionSort playerLe l)[i + 1]) ↔
        differs3 ((sortPlayers l)[i]) ((sortPlayers l)[i + 1]) :=
      differs3_congr_core hc1.symm hc2.symm
    have hrank_i : ((assignRanks (List.insertionSort playerLe l))[i]).rank =
        ((sortPlayers l)[i]).rank :=
      (sortPlayers_getElem_rank l i (by omega) (by omega)).symm
    unfold assignRanks at hrank_i
    exact if_congr hdiff (by rw [show 0 + i + 2 = i + 2 from by omega]) hrank_i

/-- Witness for C2 at a concrete two-element input. -/
theorem claim_C2_witness :
    0 < (sortPlayers [witnessF, witnessE]).length ∧
    ((sortPlayers [witnessF, witnessE]).get ⟨0, by decide⟩).rank = some 1 ∧
    ((sortPlayers [witnessF, witnessE]).get ⟨1, by decide⟩).rank =
      (if differs3 ((sortPlayers [witnessF, witnessE]).get ⟨0, by decide⟩)
          ((sortPlayers [witnessF, witnessE]).get ⟨1, by decide⟩) then some (0 + 2)
       else ((sortPlayers [witnessF, witnessE]).get ⟨0, by decide⟩).rank) :=
  ⟨by decide, (claim_C2 [witnessF, witnessE]).1 (by decide),
    (claim_C2 [witnessF, witnessE]).2.1 0 (by decide)⟩

/-! ### Tie-group machinery for claim C3 -/

/-- The full-tie relation only reads the frame core. -/
theorem tiedProp_congr_core {x y x2 y2 : Player} (hx : coreOf x = coreOf x2)
    (hy : coreOf y = coreOf y2) : tiedProp x y ↔ tiedProp x2 y2 := by
  constructor
  · intro ht
    by_contra hn
    exact (differs3_iff_not_tied.mp ((differs3_congr_core hx.symm hy.symm).mp
      (differs3_iff_not_tied.mpr hn))) ht
  · intro ht
    by_contra hn
    exact (differs3_iff_not_tied.mp ((differs3_congr_core hx hy).mp
      (differs3_iff_not_tied.mpr hn))) ht

/-- Membership in `List.enum` is positional lookup. -/
theorem mem_enum_iff (m : List Player) (jq : Nat × Player) :
    jq ∈ m.enum ↔ ∃ h : jq.1 < m.length, m[jq.1] = jq.2 := by
  constructor
  · intro hm
    obtain ⟨i, hi, heq⟩ := List.mem_iff_getElem.mp hm
    have hi' : i < m.length := by rwa [List.enum_length] at hi
    rw [List.getElem_enum] at heq
    obtain ⟨h1, h2⟩ := Prod.mk.injEq .. ▸ heq
    subst h1
    exact ⟨hi', h2⟩
  · rintro ⟨h, heq⟩
    have hlen : jq.1 < m.enum.length := by
      rw [List.enum_length]
      exact h
    have : m.enum[jq.1] = (jq.1, m[jq.1]) := List.getElem_enum ..
    have hmem : m.enum[jq.1] ∈ m.enum := List.getElem_mem hlen
    rw [this, heq] at hmem
    exact hmem

/-- Rank assignment never writes the tie flag. -/
theorem assignRanksAux_mem_isTied : ∀ (w : List Player) (i cur : Nat) (r : Player),
    r ∈ assignRanksAux i cur w → ∃ p ∈ w, r.isTied = p.isTied
  | [], _, _, r, hr => absurd hr (List.not_mem_nil r)
  | [p], _, _, r, hr => by
    simp only [assignRanksAux, List.mem_singleton] at hr
    exact ⟨p, List.mem_singleton_self p, by rw [hr]⟩
  | p :: q :: rest, i, cur, r, hr => by
    simp only [assignRanksAux, List.mem_cons] at hr
    rcases hr with hr | hr
    · exact ⟨p, List.mem_cons_self .., by rw [hr]⟩
    · obtain ⟨x, hx, hx2⟩ := assignRanksAux_mem_isTied (q :: rest) (i + 1) _ r hr
      exact ⟨x, List.mem_cons_of_mem p hx, hx2⟩

/-- Characterization of the inner tie scan when the scanned names are
pairwise distinct: it collects exactly the indices of unprocessed players
tied with the leader, and appends their names (in reverse) to the
processed list. -/
theorem scanGroup_char : ∀ (p : Player) (w : List (Nat × Player)) (pr : List String),
    (w.map (fun jq => jq.2.name)).Nodup →
    scanGroup p w pr =
      ((w.filter (fun jq => decide (jq.2.name ∉ pr) && arePlayersTied p jq.2)).map Prod.fst,
        ((w.filter (fun jq => decide (jq.2.name ∉ pr) && arePlayersTied p jq.2)).map
          (fun jq => jq.2.name)).reverse ++ pr)
  | p, [], pr, _ => by simp [scanGroup]
  | p, (j, q) :: rest, pr, hnd => by
    have hnd0 : (q.name :: rest.map (fun jq => jq.2.name)).Nodup := by
      simpa only [List.map_cons] using hnd
    have hqn : q.name ∉ rest.map (fun jq => jq.2.name) := (List.nodup_cons.mp hnd0).1
    have hnd' : (rest.map (fun jq => jq.2.name)).Nodup := (List.nodup_cons.mp hnd0).2
    simp only [scanGroup]
    by_cases hq : q.name ∈ pr
    · rw [if_pos hq]
      have hf : (decide (q.name ∉ pr) && arePlayersTied p q) = false := by
        simp [hq]
      rw [scanGroup_char p rest pr hnd']
      simp only [List.filter_cons, hf]
      rw [if_neg (show ¬ false = true by simp)]
    · rw [if_neg hq]
      by_cases ht : arePlayersTied p q
      · rw [if_pos ht]
        have heq := scanGroup_char p rest (q.name :: pr) hnd'
        have hcong : rest.filter
              (fun jq => decide (jq.2.name ∉ q.name :: pr) && arePlayersTied p jq.2) =
            rest.filter (fun jq => decide (jq.2.name ∉ pr) && arePlayersTied p jq.2) := by
          apply List.filter_congr
          intro jq hjq
          have hne : jq.2.name ≠ q.name := by
            intro hcontra
            exact hqn (hcontra ▸ List.mem_map_of_mem (fun kq => kq.2.name) hjq)
          simp [List.mem_cons, hne]
        rw [heq, hcong]
        have hf : (decide (q.name ∉ pr) && arePlayersTied p q) = true := by
          simp [hq, ht]
        simp only [List.filter_cons, hf]
        rw [if_pos trivial]
        simp [List.reverse_cons, List.append_assoc]
      · rw [if_neg ht]
        have hf : (decide (q.name ∉ pr) && arePlayersTied p q) = false := by
          simp only [Bool.and_eq_false_iff]
          right
          exact Bool.not_eq_true _ ▸ (by simpa using ht)
        rw [scanGroup_char p rest pr hnd']
        simp only [List.filter_cons, hf]
        rw [if_neg (show ¬ false = true by simp)]

/-- Membership in the flattened tie groups, for any processed-name list
closed under the tie relation: position j is collected exactly when its
player is unprocessed and some other position holds a player fully tied
with it.  Requires pairwise-distinct indices and names. -/
theorem findTieGroupsAux_flatten_mem :
    ∀ (w : List (Nat × Player)) (pr : List String),
    (w.map Prod.fst).Nodup →
    (w.map (fun jq => jq.2.name)).Nodup →
    (∀ jq ∈ w, jq.2.name ∈ pr → ∀ kq ∈ w, tiedProp jq.2 kq.2 → kq.2.name ∈ pr) →
    ∀ j : Nat,
      (j ∈ (findTieGroupsAux w pr).flatten ↔
        ∃ jq ∈ w, jq.1 = j ∧ jq.2.name ∉ pr ∧
          ∃ kq ∈ w, kq.1 ≠ j ∧ tiedProp jq.2 kq.2) := by
  intro w
  induction w with
  | nil =>
    intro pr _ _ _ j
    simp [findTieGroupsAux]
  | cons hd rest IH =>
    obtain ⟨i, p⟩ := hd
    intro pr hfst hnm hcl j
    have hfst0 : (i :: rest.map Prod.fst).Nodup := by
      simpa only [List.map_cons] using hfst
    have hi_not : i ∉ rest.map Prod.fst := (List.nodup_cons.mp hfst0).1
    have hfst' : (rest.map Prod.fst).Nodup := (List.nodup_cons.mp hfst0).2
    have hnm0 : (p.name :: rest.map (fun jq => jq.2.name)).Nodup := by
      simpa only [List.map_cons] using hnm
    have hp_not : p.name ∉ rest.map (fun jq => jq.2.name) := (List.nodup_cons.mp hnm0).1
    have hnm' : (rest.map (fun jq => jq.2.name)).Nodup := (List.nodup_cons.mp hnm0).2
    have hinj : ∀ x ∈ rest, ∀ y ∈ rest, x.2.name = y.2.name → x = y := by
      intro x hx y hy hxy
      exact List.inj_on_of_nodup_map hnm' hx hy hxy
    have hcl' : ∀ jq ∈ rest, jq.2.name ∈ pr → ∀ kq ∈ rest,
        tiedProp jq.2 kq.2 → kq.2.name ∈ pr := by
      intro jq hjq hn kq hkq ht
      exact hcl jq (List.mem_cons_of_mem _ hjq) hn kq (List.mem_cons_of_mem _ hkq) ht
    simp only [findTieGroupsAux]
    by_cases hp : p.name ∈ pr
    · rw [if_pos hp, IH pr hfst' hnm' hcl' j]
      constructor
      · rintro ⟨jq, hjq, h1, h2, kq, hkq, h3, h4⟩
        exact ⟨jq, List.mem_cons_of_mem _ hjq, h1, h2, kq, List.mem_cons_of_mem _ hkq, h3, h4⟩
      · rintro ⟨jq, hjq, h1, h2, kq, hkq, h3, h4⟩
        rcases List.mem_cons.mp hjq with hjq0 | hjq'
        · subst hjq0
          exact absurd hp h2
        · rcases List.mem_cons.mp hkq with hkq0 | hkq'
          · subst hkq0
            have : jq.2.name ∈ pr := hcl (i, p) (List.mem_cons_self ..) hp jq
              (List.mem_cons_of_mem _ hjq') (tiedProp_symm h4)
            exact absurd this h2
          · exact ⟨jq, hjq', h1, h2, kq, hkq', h3, h4⟩
    · rw [if_neg hp]
      have hsg := scanGroup_char p rest (p.name :: pr) hnm'
      have hs1 : (scanGroup p rest (p.name :: pr)).1 =
          (rest.filter (fun jq => decide (jq.2.name ∉ p.name :: pr) &&
            arePlayersTied p jq.2)).map Prod.fst := by
        rw [hsg]
      have hNoPr : ∀ kq ∈ rest, tiedProp p kq.2 → kq.2.name ∉ pr := by
        intro kq hk ht hn
        exact hp (hcl kq (List.mem_cons_of_mem _ hk) hn (i, p)
          (List.mem_cons_self ..) (tiedProp_symm ht))
      have hNeP : ∀ kq ∈ rest, kq.2.name ≠ p.name := by
        intro kq hk hcontra
        exact hp_not (hcontra ▸ List.mem_map_of_mem (fun jq => jq.2.name) hk)
      have hF_mem : ∀ jq, (jq ∈ rest.filter (fun kq => decide (kq.2.name ∉ p.name :: pr) &&
          arePlayersTied p kq.2) ↔ (jq ∈ rest ∧ tiedProp p jq.2)) := by
        intro jq
        rw [List.mem_filter]
        constructor
        · rintro ⟨h1, h2⟩
          simp only [Bool.and_eq_true, decide_eq_true_eq] at h2
          exact ⟨h1, arePlayersTied_iff.mp h2.2⟩
        · rintro ⟨h1, h2⟩
          refine ⟨h1, ?_⟩
          simp only [Bool.and_eq_true, decide_eq_true_eq]
          refine ⟨?_, arePlayersTied_iff.mpr h2⟩
          intro hmem
          rcases List.mem_cons.mp hmem with he | hm
          · exact hNeP jq h1 he
          · exact hNoPr jq h1 h2 hm
      have hs2_mem : ∀ x, (x ∈ (scanGroup p rest (p.name :: pr)).2 ↔
          (x ∈ pr ∨ x = p.name ∨ ∃ fq ∈ rest.filter (fun kq =>
            decide (kq.2.name ∉ p.name :: pr) && arePlayersTied p kq.2),
              fq.2.name = x)) := by
        intro x
        rw [hsg]
        dsimp only
        simp only [List.mem_append, List.mem_reverse, List.mem_map]
        rw [List.mem_cons]
        constructor
        · rintro (h | h | h)
          · exact Or.inr (Or.inr h)
          · exact Or.inr (Or.inl h)
          · exact Or.inl h
        · rintro (h | h | h)
          · exact Or.inr (Or.inr h)
          · exact Or.inr (Or.inl h)
          · exact Or.inl h
      have hcl2 : ∀ jq ∈ rest, jq.2.name ∈ (scanGroup p rest (p.name :: pr)).2 →
          ∀ kq ∈ rest, tiedProp jq.2 kq.2 →
            kq.2.name ∈ (scanGroup p rest (p.name :: pr)).2 := by
        intro jq hjq hn kq hkq ht
        rw [hs2_mem] at hn ⊢
        rcases hn with hn | hn | hn
        · exact Or.inl (hcl' jq hjq hn kq hkq ht)
        · exact absurd hn (hNeP jq hjq)
        · obtain ⟨fq, hfF, hfname⟩ := hn
          have hfq_rest : fq ∈ rest := ((hF_mem fq).mp hfF).1
          have hfj : fq = jq := hinj fq hfq_rest jq hjq hfname
          have hpf : tiedProp p jq.2 := hfj ▸ ((hF_mem fq).mp hfF).2
          exact Or.inr (Or.inr ⟨kq, (hF_mem kq).mpr ⟨hkq, tiedProp_trans hpf ht⟩, rfl⟩)
      have IH2 := IH (scanGroup p rest (p.name :: pr)).2 hfst' hnm' hcl2 j
      have hnot_s2 : ∀ jq ∈ rest, (jq.2.name ∉ (scanGroup p rest (p.name :: pr)).2 ↔
          (jq.2.name ∉ pr ∧ ¬ tiedProp p jq.2)) := by
        intro jq hjq
        rw [hs2_mem]
        constructor
        · intro hn
          constructor
          · intro hmem
            exact hn (Or.inl hmem)
          · intro ht
            exact hn (Or.inr (Or.inr ⟨jq, (hF_mem jq).mpr ⟨hjq, ht⟩, rfl⟩))
        · rintro ⟨h1, h2⟩ (hm | hm | ⟨fq, hfF, hfname⟩)
          · exact h1 hm
          · exact hNeP jq hjq hm
          · have hfq_rest : fq ∈ rest := ((hF_mem fq).mp hfF).1
            have hfj : fq = jq := hinj fq hfq_rest jq hjq hfname
            exact h2 (hfj ▸ ((hF_mem fq).mp hfF).2)
      rw [hs1]
      set F := rest.filter (fun kq => decide (kq.2.name ∉ p.name :: pr) &&
        arePlayersTied p kq.2) with hFdef
      set s2 := (scanGroup p rest (p.name :: pr)).2 with hs2def
      by_cases hFe : F = []
      · rw [hFe]
        rw [if_pos (show (List.map Prod.fst ([] : List (Nat × Player))).isEmpty = true
          from rfl)]
        rw [IH2]
        have hNoTie : ∀ kq ∈ rest, ¬ tiedProp p kq.2 := by
          intro kq hk ht
          have hkF : kq ∈ F := (hF_mem kq).mpr ⟨hk, ht⟩
          rw [hFe] at hkF
          exact absurd hkF (List.not_mem_nil kq)
        constructor
        · rintro ⟨jq, hjq, h1, h2, kq, hkq, h3, h4⟩
          have h2' := (hnot_s2 jq hjq).mp h2
          exact ⟨jq, List.mem_cons_of_mem _ hjq, h1, h2'.1, kq,
            List.mem_cons_of_mem _ hkq, h3, h4⟩
        · rintro ⟨jq, hjq, h1, h2, kq, hkq, h3, h4⟩
          rcases List.mem_cons.mp hjq with hjq0 | hjq'
          · subst hjq0
            rcases List.mem_cons.mp hkq with hkq0 | hkq'
            · subst hkq0
              exact absurd h1 h3
            · exact absurd h4 (hNoTie kq hkq')
          · rcases List.mem_cons.mp hkq with hkq0 | hkq'
            · subst hkq0
              exact absurd (tiedProp_symm h4) (hNoTie jq hjq')
            · exact ⟨jq, hjq', h1, (hnot_s2 jq hjq').mpr ⟨h2, hNoTie jq hjq'⟩,
                kq, hkq', h3, h4⟩
      · have hs1ne : ((F.map Prod.fst).isEmpty) = false := by
          rw [List.isEmpty_eq_false]
          intro hcontra
          exact hFe (List.map_eq_nil_iff.mp hcontra)
        rw [hs1ne, if_neg (show ¬ false = true by simp), List.flatten_cons]
        obtain ⟨f0, hf0⟩ := List.exists_mem_of_ne_nil _ hFe
        have hf0_rest : f0 ∈ rest := ((hF_mem f0).mp hf0).1
        have hf0_tied : tiedProp p f0.2 := ((hF_mem f0).mp hf0).2
        constructor
        · intro hmem
          rcases List.mem_append.mp hmem with hmem | hmem
          · rcases List.mem_cons.mp hmem with h | h
            · refine ⟨(i, p), List.mem_cons_self .., h.symm, hp, f0,
                List.mem_cons_of_mem _ hf0_rest, ?_, hf0_tied⟩
              intro hcontra
              apply hi_not
              have hfi : f0.1 = i := hcontra.trans h
              exact hfi ▸ List.mem_map_of_mem Prod.fst hf0_rest
            · obtain ⟨fq, hfF, hfj⟩ := List.mem_map.mp h
              have hfq_rest : fq ∈ rest := ((hF_mem fq).mp hfF).1
              have hfq_tied : tiedProp p fq.2 := ((hF_mem fq).mp hfF).2
              refine ⟨fq, List.mem_cons_of_mem _ hfq_rest, hfj,
                hNoPr fq hfq_rest hfq_tied, (i, p), List.mem_cons_self .., ?_,
                tiedProp_symm hfq_tied⟩
              intro hcontra
              apply hi_not
              have hfi : fq.1 = i := hfj.trans hcontra.symm
              exact hfi ▸ List.mem_map_of_mem Prod.fst hfq_rest
          · obtain ⟨jq, hjq, h1, h2, kq, hkq, h3, h4⟩ := IH2.mp hmem
            have h2' := (hnot_s2 jq hjq).mp h2
            exact ⟨jq, List.mem_cons_of_mem _ hjq, h1, h2'.1, kq,
              List.mem_cons_of_mem _ hkq, h3, h4⟩
        · rintro ⟨jq, hjq, h1, h2, kq, hkq, h3, h4⟩
          rcases List.mem_cons.mp hjq with hjq0 | hjq'
          · subst hjq0
            exact List.mem_append.mpr (Or.inl (List.mem_cons.mpr (Or.inl h1.symm)))
          · by_cases htied : tiedProp p jq.2
            · exact List.mem_append.mpr (Or.inl (List.mem_cons.mpr (Or.inr
                (List.mem_map.mpr ⟨jq, (hF_mem jq).mpr ⟨hjq', htied⟩, h1⟩))))
            · rcases List.mem_cons.mp hkq with hkq0 | hkq'
              · exfalso
                subst hkq0
                exact htied (tiedProp_symm h4)
              · exact List.mem_append.mpr (Or.inr (IH2.mpr ⟨jq, hjq', h1,
                  (hnot_s2 jq hjq').mpr ⟨h2, htied⟩, kq, hkq', h3, h4⟩))

/-- Top-level tie-group characterization: with pairwise-distinct names,
position j is flagged exactly when some other position holds a fully tied
player. -/
theorem findTieGroups_flatten_mem (m : List Player)
    (hnm : (m.map Player.name).Nodup) (j : Nat) (hj : j < m.length) :
    (j ∈ (findTieGroups m).flatten ↔
      ∃ k, ∃ hk : k < m.length, k ≠ j ∧ tiedProp m[j] m[k]) := by
  unfold findTieGroups
  have hfst : (m.enum.map Prod.fst).Nodup := by
    rw [List.enum_map_fst]
    exact List.nodup_range m.length
  have hnames : (m.enum.map (fun jq => jq.2.name)).Nodup := by
    have hmm : m.enum.map (fun jq => jq.2.name) = (m.enum.map Prod.snd).map Player.name := by
      rw [List.map_map]
      rfl
    rw [hmm, List.enum_map_snd]
    exact hnm
  have hcl : ∀ jq ∈ m.enum, jq.2.name ∈ ([] : List String) → ∀ kq ∈ m.enum,
      tiedProp jq.2 kq.2 → kq.2.name ∈ ([] : List String) := by
    intro jq _ hn
    exact absurd hn (List.not_mem_nil _)
  rw [findTieGroupsAux_flatten_mem m.enum [] hfst hnames hcl j]
  constructor
  · rintro ⟨jq, hjq, h1, _, kq, hkq, h3, h4⟩
    obtain ⟨hjlt, hjget⟩ := (mem_enum_iff m jq).mp hjq
    obtain ⟨hklt, hkget⟩ := (mem_enum_iff m kq).mp hkq
    subst h1
    refine ⟨kq.1, hklt, h3, ?_⟩
    rw [hjget, hkget]
    exact h4
  · rintro ⟨k, hk, hne, ht⟩
    exact ⟨(j, m[j]), (mem_enum_iff m (j, m[j])).mpr ⟨hj, rfl⟩, rfl,
      List.not_mem_nil _, (k, m[k]), (mem_enum_iff m (k, m[k])).mpr ⟨hk, rfl⟩, hne, ht⟩

/-- C3: assuming the specification's data-model invariant that competitor
names are pairwise distinct and that the tie flags of the input are
unset (the ranking engine owns writing them), a competitor in the output
of `sortPlayers` carries `isTied = true` exactly when at least one other
input competitor has equal total points, equal total spending, and
countback returning 0 against it: every member of a maximal fully-tied
group of size at least two is flagged, and nobody else is. -/
theorem claim_C3 (l : List Player)
    (hnames : (l.map Player.name).Nodup)
    (hfresh : ∀ p ∈ l, p.isTied = false) :
    ∀ (j : Nat) (h : j < (sortPlayers l).length),
      (((sortPlayers l)[j]).isTied = true ↔
        ∃ q ∈ l, q.name ≠ ((sortPlayers l)[j]).name ∧
          tiedProp q ((sortPlayers l)[j])) := by
  intro j h
  have hperm : List.Perm (List.insertionSort playerLe l) l :=
    List.perm_insertionSort playerLe l
  have hcore : (assignRanks (List.insertionSort playerLe l)).map coreOf =
      (List.insertionSort playerLe l).map coreOf := by
    unfold assignRanks
    exact assignRanksAux_map_core _ 0 1
  have hnamefun : ∀ (w : List Player),
      w.map Player.name = (w.map coreOf).map Prod.fst := by
    intro w
    rw [List.map_map]
    rfl
  have hlenm : (assignRanks (List.insertionSort playerLe l)).length = l.length := by
    unfold assignRanks
    rw [assignRanksAux_length, List.length_insertionSort]
  have hjm : j < (assignRanks (List.insertionSort playerLe l)).length := by
    rw [hlenm]
    rw [sortPlayers_length] at h
    exact h
  have hnodup_m :
      ((assignRanks (List.insertionSort playerLe l)).map Player.name).Nodup := by
    rw [hnamefun, hcore, ← hnamefun]
    exact ((hperm.map Player.name).nodup_iff).mpr hnames
  have hfresh_m : ∀ r ∈ assignRanks (List.insertionSort playerLe l),
      r.isTied = false := by
    intro r hr
    unfold assignRanks at hr
    obtain ⟨p, hps, hpe⟩ := assignRanksAux_mem_isTied _ 0 1 r hr
    rw [hpe]
    exact hfresh p (hperm.subset hps)
  unfold sortPlayers at h ⊢
  rw [markTied_getElem (assignRanks (List.insertionSort playerLe l)) j h hjm]
  by_cases hjf : j ∈ (findTieGroups (assignRanks (List.insertionSort playerLe l))).flatten
  · rw [if_pos hjf]
    constructor
    · intro _
      obtain ⟨k, hk, hkj, ht⟩ :=
        (findTieGroups_flatten_mem _ hnodup_m j hjm).mp hjf
      have hmemc : coreOf ((assignRanks (List.insertionSort playerLe l))[k]) ∈
          l.map coreOf := by
        have h1 : coreOf ((assignRanks (List.insertionSort playerLe l))[k]) ∈
            (assignRanks (List.insertionSort playerLe l)).map coreOf :=
          List.mem_map_of_mem coreOf (List.getElem_mem hk)
        rw [hcore] at h1
        exact (hperm.map coreOf).subset h1
      obtain ⟨q, hq, hqcore⟩ := List.mem_map.mp hmemc
      have hqname : q.name = ((assignRanks (List.insertionSort playerLe l))[k]).name :=
        congrArg Prod.fst hqcore
      refine ⟨q, hq, ?_, ?_⟩
      · intro hcontra
        have hnameeq : ((assignRanks (List.insertionSort playerLe l))[k]).name =
            ((assignRanks (List.insertionSort playerLe l))[j]).name := by
          rw [← hqname]
          exact hcontra
        apply hkj
        have hk' : k < ((assignRanks (List.insertionSort playerLe l)).map
            Player.name).length := by
          rw [List.length_map]
          exact hk
        have hj' : j < ((assignRanks (List.insertionSort playerLe l)).map
            Player.name).length := by
          rw [List.length_map]
          exact hjm
        have hmk : ((assignRanks (List.insertionSort playerLe l)).map
            Player.name)[k] = ((assignRanks (List.insertionSort playerLe l)).map
              Player.name)[j] := by
          rw [List.getElem_map, List.getElem_map]
          exact hnameeq
        exact (List.Nodup.getElem_inj_iff hnodup_m).mp hmk
      · have ht' : tiedProp ((assignRanks (List.insertionSort playerLe l))[k])
            ((assignRanks (List.insertionSort playerLe l))[j]) := tiedProp_symm ht
        exact (tiedProp_congr_core hqcore.symm (coreOf_isTied _ _).symm).mp ht'
    · intro _
      rfl
  · rw [if_neg hjf]
    have hfj : ((assignRanks (List.insertionSort playerLe l))[j]).isTied = false :=
      hfresh_m _ (List.getElem_mem hjm)
    constructor
    · intro hcontra
      rw [hfj] at hcontra
      exact absurd hcontra (by simp)
    · rintro ⟨q, hq, hqname, hqt⟩
      exfalso
      apply hjf
      have hmemc : coreOf q ∈ (assignRanks (List.insertionSort playerLe l)).map
          coreOf := by
        rw [hcore]
        exact (hperm.map coreOf).mem_iff.mpr (List.mem_map_of_mem coreOf hq)
      obtain ⟨x, hx, hxcore⟩ := List.mem_map.mp hmemc
      obtain ⟨k, hk, hkx⟩ := List.mem_iff_getElem.mp hx
      have hqk : coreOf q = coreOf ((assignRanks (List.insertionSort playerLe l))[k]) := by
        rw [hkx]
        exact hxcore.symm
      apply (findTieGroups_flatten_mem _ hnodup_m j hjm).mpr
      refine ⟨k, hk, ?_, tiedProp_symm ((tiedProp_congr_core hqk rfl).mp hqt)⟩
      intro hkj0
      subst hkj0
      apply hqname
      exact congrArg Prod.fst hqk

/-- Witness for C3 at a concrete two-element tied input. -/
theorem claim_C3_witness :
    (([witnessA, witnessB].map Player.name).Nodup ∧
      ∀ p ∈ [witnessA, witnessB], p.isTied = false) ∧
    (((sortPlayers [witnessA, witnessB]).get ⟨0, by decide⟩).isTied = true ↔
      ∃ q ∈ [witnessA, witnessB],
        q.name ≠ ((sortPlayers [witnessA, witnessB]).get ⟨0, by decide⟩).name ∧
        tiedProp q ((sortPlayers [witnessA, witnessB]).get ⟨0, by decide⟩)) :=
  ⟨⟨by decide, by decide⟩,
    claim_C3 [witnessA, witnessB] (by decide) (by decide) 0 (by decide)⟩

/-- C4 counterexample: `sortPlayers` performs no input validation and never
refuses.  On the empty input set it returns the empty ranking, and on a
competitor whose score and spending arrays have mismatched lengths it
happily returns a ranked result. -/
theorem claim_C4_counterexample :
    sortPlayers [] = ([] : List Player) ∧
    badPlayer.eventScores.length ≠ badPlayer.eventSpending.length ∧
    (sortPlayers [badPlayer]).length = 1 ∧
    ((sortPlayers [badPlayer]).get ⟨0, by decide⟩).rank = some 1 := by
  refine ⟨rfl, by decide, by decide, by decide⟩

/-- C4 amended: the ranking engine is total — for every input list,
contract-violating or not, `sortPlayers` returns a ranked result of the
same length with every competitor's rank assigned; rejection of bad input
happens (if at all) outside the engine. -/
theorem claim_C4_amended (l : List Player) :
    (sortPlayers l).length = l.length ∧
    ∀ r ∈ sortPlayers l, r.rank.isSome := by
  refine ⟨sortPlayers_length l, ?_⟩
  intro r hr
  rw [sortPlayers_rank_count l r hr]
  rfl

/-- Witness for the amended C4 at a concrete ill-formed input. -/
theorem claim_C4_witness :
    (sortPlayers [emptyPlayer, badPlayer]).length = [emptyPlayer, badPlayer].length ∧
    ∀ r ∈ sortPlayers [emptyPlayer, badPlayer], r.rank.isSome :=
  claim_C4_amended [emptyPlayer, badPlayer]
